import Mathlib

/-!
# Verification of the SudokuSolver core (grid, candidate calculator, selector,
solver/backtracker engine, validator, generator, cell removal)

This file shallowly embeds the Rust sources `src/board.rs` and `src/main.rs`
into Lean.  A `Board`'s 81 `u8` cells become a `List ℕ` in row-major order;
the `HashSet<u8>` entropy sets of the source are represented by their contents
as an ascending duplicate-free list (obtained by filtering `List.range 10`),
since only membership, cardinality and an externally supplied iteration order
of a hash set are observable.  Sources of nondeterminism of the Rust program
(hash-set iteration order and the thread-local random generator's `choose`)
are passed in explicitly as an `Oracle`.  Machine integers stay well inside
`u8`/`usize`/`i32` ranges except where noted, so `ℕ`/`ℤ` model them exactly.
-/

set_option maxRecDepth 100000

namespace Sudoku

/-- A board: the 81 cells of `Board { cells: [u8; 81] }`, row-major.
Out-of-range reads default to `0`, which never happens for length-81 lists
(the only ones produced by the Rust constructor). -/
abbrev Grid := List ℕ

/-- Reading `cells[row * 9 + col]`. -/
def cellAt (g : Grid) (row col : ℕ) : ℕ := g.getD (row * 9 + col) 0

/-- `Board::get_row`: the cells whose linear index `i` satisfies `i / 9 == row`,
in index order (`cells.iter().enumerate().filter(|(i, _)| i / 9 == row)`). -/
def get_row (g : Grid) (row : ℕ) : List ℕ :=
  (((List.range 81).filter (fun i => i / 9 == row)).map (fun i => g.getD i 0))

/-- `Board::get_column`: the cells whose linear index `i` satisfies
`i % 9 == column`. -/
def get_column (g : Grid) (column : ℕ) : List ℕ :=
  (((List.range 81).filter (fun i => i % 9 == column)).map (fun i => g.getD i 0))

/-- `Board::get_tile`: the cells whose linear index `i` satisfies
`i / 27 == tile.0 && (i % 9) / 3 == tile.1`. -/
def get_tile (g : Grid) (tile : ℕ × ℕ) : List ℕ :=
  (((List.range 81).filter (fun i => i / 27 == tile.1 && (i % 9) / 3 == tile.2)).map
    (fun i => g.getD i 0))

/-- `Board::calculate_entropy_at_cell`.  Returns `None` for a filled cell;
otherwise the contents of `((({0..=9} \ row) \ column) \ tile)` — the chain of
`HashSet` differences of the source — listed in ascending order. -/
def calculate_entropy_at_cell (g : Grid) (row col : ℕ) : Option (List ℕ) :=
  if g.getD (row * 9 + col) 0 ≠ 0 then none
  else
    some (((((List.range 10).filter
      (fun v => !((get_row g row).contains v))).filter
      (fun v => !((get_column g col).contains v))).filter
      (fun v => !((get_tile g (row / 3, col / 3)).contains v))))

/-- Values of a row are exactly the values at linear indices of that row. -/
theorem mem_get_row {g : Grid} {row v : ℕ} :
    v ∈ get_row g row ↔ ∃ i, i < 81 ∧ i / 9 = row ∧ g.getD i 0 = v := by
  simp only [get_row, List.mem_map, List.mem_filter, List.mem_range, beq_iff_eq]
  constructor
  · rintro ⟨i, ⟨hi, hrow⟩, hv⟩; exact ⟨i, hi, hrow, hv⟩
  · rintro ⟨i, hi, hrow, hv⟩; exact ⟨i, ⟨hi, hrow⟩, hv⟩

/-- Values of a column are exactly the values at linear indices of that column. -/
theorem mem_get_column {g : Grid} {col v : ℕ} :
    v ∈ get_column g col ↔ ∃ i, i < 81 ∧ i % 9 = col ∧ g.getD i 0 = v := by
  simp only [get_column, List.mem_map, List.mem_filter, List.mem_range, beq_iff_eq]
  constructor
  · rintro ⟨i, ⟨hi, hcol⟩, hv⟩; exact ⟨i, hi, hcol, hv⟩
  · rintro ⟨i, hi, hcol, hv⟩; exact ⟨i, ⟨hi, hcol⟩, hv⟩

/-- Values of a tile are exactly the values at linear indices of that tile. -/
theorem mem_get_tile {g : Grid} {t : ℕ × ℕ} {v : ℕ} :
    v ∈ get_tile g t ↔ ∃ i, i < 81 ∧ i / 27 = t.1 ∧ (i % 9) / 3 = t.2 ∧ g.getD i 0 = v := by
  simp only [get_tile, List.mem_map, List.mem_filter, List.mem_range, Bool.and_eq_true,
    beq_iff_eq]
  constructor
  · rintro ⟨i, ⟨hi, h1, h2⟩, hv⟩; exact ⟨i, hi, h1, h2, hv⟩
  · rintro ⟨i, hi, h1, h2, hv⟩; exact ⟨i, ⟨hi, h1, h2⟩, hv⟩

/-- Every cell value belongs to its own row view. -/
theorem cellAt_mem_get_row {g : Grid} {row col : ℕ} (hr : row < 9) (hc : col < 9) :
    cellAt g row col ∈ get_row g row := by
  exact mem_get_row.mpr ⟨row * 9 + col, by omega, by omega, rfl⟩

/-- Membership in the computed entropy list of an empty cell. -/
theorem mem_entropy_iff {g : Grid} {row col : ℕ} {ent : List ℕ}
    (h : calculate_entropy_at_cell g row col = some ent) {d : ℕ} :
    d ∈ ent ↔ d < 10 ∧ d ∉ get_row g row ∧ d ∉ get_column g col ∧
      d ∉ get_tile g (row / 3, col / 3) := by
  unfold calculate_entropy_at_cell at h
  split at h
  · exact absurd h (by simp)
  · rw [Option.some.injEq] at h
    subst h
    simp only [List.mem_filter, List.mem_range, Bool.not_eq_true', List.contains,
      List.elem_eq_mem, decide_eq_false_iff_not]
    tauto

/-- Claim C8: the candidate calculator returns `None` exactly on filled cells;
on an empty cell it returns the set `{1..9}` minus the digits of the cell's
row, column and tile, and `0` is never among the candidates.  (The function
is pure: in the source it takes `&self`, and its embedding returns only the
candidate list, leaving the grid untouched.) -/
theorem C8_calculate_entropy_spec (g : Grid) (row col : ℕ) (hr : row < 9) (hc : col < 9) :
    (calculate_entropy_at_cell g row col = none ↔ cellAt g row col ≠ 0)
    ∧ (∀ ent, calculate_entropy_at_cell g row col = some ent →
        (∀ d, d ∈ ent ↔ 1 ≤ d ∧ d ≤ 9 ∧ d ∉ get_row g row ∧ d ∉ get_column g col ∧
          d ∉ get_tile g (row / 3, col / 3))
        ∧ 0 ∉ ent) := by
  constructor
  · unfold calculate_entropy_at_cell cellAt
    split
    · next h => simpa using h
    · next h => simp_all
  · intro ent hent
    have hcell : cellAt g row col = 0 := by
      by_contra hne
      unfold calculate_entropy_at_cell at hent
      rw [if_pos (by exact hne)] at hent
      exact absurd hent (by simp)
    have hzero_row : (0 : ℕ) ∈ get_row g row := hcell ▸ cellAt_mem_get_row hr hc
    constructor
    · intro d
      rw [mem_entropy_iff hent]
      constructor
      · rintro ⟨hd10, hrow, hcol, htile⟩
        refine ⟨?_, by omega, hrow, hcol, htile⟩
        rcases Nat.eq_zero_or_pos d with h0 | h0
        · subst h0; exact absurd hzero_row hrow
        · exact h0
      · rintro ⟨h1, h9, hrow, hcol, htile⟩
        exact ⟨by omega, hrow, hcol, htile⟩
    · rw [mem_entropy_iff hent]
      rintro ⟨-, hrow, -, -⟩
      exact hrow hzero_row

/-- `calculate_entropy_at_cell` returns `None` exactly on filled cells. -/
theorem entropy_none_iff {g : Grid} {row col : ℕ} :
    calculate_entropy_at_cell g row col = none ↔ cellAt g row col ≠ 0 := by
  unfold calculate_entropy_at_cell cellAt
  split
  · next h => simpa using h
  · next h => simp_all

/-- The row-major scan order of `find_least_entropy`
(`for row in 0..9 { for col in 0..9 { ... } }`). -/
def scanPositions : List (ℕ × ℕ) :=
  (List.range 9).flatMap (fun row => (List.range 9).map (fun col => (row, col)))

/-- The body of `find_least_entropy`'s double loop, folding over the scanned
positions with accumulator `(min_pos, min_entropy)` and updating only on a
strictly smaller candidate count. -/
def scanLE (g : Grid) : List (ℕ × ℕ) → ((ℕ × ℕ) × List ℕ) → ((ℕ × ℕ) × List ℕ)
  | [], acc => acc
  | p :: rest, acc =>
    match calculate_entropy_at_cell g p.1 p.2 with
    | some e => scanLE g rest (if e.length < acc.2.length then (p, e) else acc)
    | none => scanLE g rest acc

/-- `Board::find_least_entropy`: scan all 81 cells starting from
`min_pos = (10, 10)` and `min_entropy = (0..=9)` (ten entries), and report
`None` exactly when `min_pos` was never updated. -/
def find_least_entropy (g : Grid) : Option ((ℕ × ℕ) × List ℕ) :=
  let r := scanLE g scanPositions ((10, 10), List.range 10)
  if r.1 = (10, 10) then none else some r

/-- The accumulator's candidate count never increases along the scan. -/
theorem scanLE_len_le (g : Grid) (l : List (ℕ × ℕ)) (acc : (ℕ × ℕ) × List ℕ) :
    (scanLE g l acc).2.length ≤ acc.2.length := by
  induction l generalizing acc with
  | nil => simp [scanLE]
  | cons p rest ih =>
    rcases h : calculate_entropy_at_cell g p.1 p.2 with _ | e
    · simpa [scanLE, h] using ih acc
    · simp only [scanLE, h]
      split
      · next hlt => exact le_trans (ih _) (le_of_lt hlt)
      · exact ih acc

/-- If no scanned cell is empty, the scan leaves the accumulator unchanged. -/
theorem scanLE_of_no_empty {g : Grid} {l : List (ℕ × ℕ)}
    (h : ∀ p ∈ l, cellAt g p.1 p.2 ≠ 0) (acc : (ℕ × ℕ) × List ℕ) :
    scanLE g l acc = acc := by
  induction l generalizing acc with
  | nil => simp [scanLE]
  | cons p rest ih =>
    have hp : calculate_entropy_at_cell g p.1 p.2 = none :=
      entropy_none_iff.mpr (h p (List.mem_cons_self _ _))
    simp only [scanLE, hp]
    exact ih (fun q hq => h q (List.mem_cons_of_mem _ hq)) acc

/-- Provenance: the scan result is the initial accumulator or the position and
entropy of some scanned empty cell. -/
theorem scanLE_provenance (g : Grid) (l : List (ℕ × ℕ)) (acc : (ℕ × ℕ) × List ℕ) :
    scanLE g l acc = acc ∨
      ∃ p ∈ l, ∃ e, calculate_entropy_at_cell g p.1 p.2 = some e ∧ scanLE g l acc = (p, e) := by
  induction l generalizing acc with
  | nil => left; simp [scanLE]
  | cons p rest ih =>
    rcases h : calculate_entropy_at_cell g p.1 p.2 with _ | e
    · simp only [scanLE, h]
      rcases ih acc with h1 | ⟨q, hq, e', he', hr⟩
      · left; exact h1
      · right; exact ⟨q, List.mem_cons_of_mem _ hq, e', he', hr⟩
    · simp only [scanLE, h]
      split
      · rcases ih (p, e) with h1 | ⟨q, hq, e', he', hr⟩
        · right; exact ⟨p, List.mem_cons_self _ _, e, h, h1⟩
        · right; exact ⟨q, List.mem_cons_of_mem _ hq, e', he', hr⟩
      · rcases ih acc with h1 | ⟨q, hq, e', he', hr⟩
        · left; exact h1
        · right; exact ⟨q, List.mem_cons_of_mem _ hq, e', he', hr⟩

/-- The scan result's candidate count is at most that of any scanned empty cell. -/
theorem scanLE_min (g : Grid) (l : List (ℕ × ℕ)) (acc : (ℕ × ℕ) × List ℕ) :
    ∀ p ∈ l, ∀ e, calculate_entropy_at_cell g p.1 p.2 = some e →
      (scanLE g l acc).2.length ≤ e.length := by
  induction l generalizing acc with
  | nil => intro p hp; simp at hp
  | cons q rest ih =>
    intro p hp e he
    rcases List.mem_cons.mp hp with rfl | hp'
    · simp only [scanLE, he]
      split
      · next hlt => exact le_trans (scanLE_len_le g rest _) le_rfl
      · next hge =>
        push_neg at hge
        exact le_trans (scanLE_len_le g rest acc) hge
    · rcases h : calculate_entropy_at_cell g q.1 q.2 with _ | e'
      · simp only [scanLE, h]; exact ih acc p hp' e he
      · simp only [scanLE, h]
        split
        · exact ih _ p hp' e he
        · exact ih acc p hp' e he

/-- If the scan moved the position, the candidate count strictly decreased. -/
theorem scanLE_strict (g : Grid) (l : List (ℕ × ℕ)) (acc : (ℕ × ℕ) × List ℕ)
    (h : (scanLE g l acc).1 ≠ acc.1) :
    (scanLE g l acc).2.length < acc.2.length := by
  induction l generalizing acc with
  | nil => simp [scanLE] at h
  | cons p rest ih =>
    rcases he : calculate_entropy_at_cell g p.1 p.2 with _ | e
    · simp only [scanLE, he] at h ⊢; exact ih acc h
    · simp only [scanLE, he] at h ⊢
      by_cases hlt : e.length < acc.2.length
      · rw [if_pos hlt] at h ⊢
        by_cases hmove : (scanLE g rest (p, e)).1 = (p, e).1
        · calc (scanLE g rest (p, e)).2.length ≤ e.length := scanLE_len_le g rest (p, e)
            _ < acc.2.length := hlt
        · calc (scanLE g rest (p, e)).2.length < e.length := ih (p, e) hmove
            _ < acc.2.length := hlt
      · rw [if_neg hlt] at h ⊢
        exact ih acc h

/-- Any position scanned strictly before the final minimum has a strictly
larger candidate count (the scan keeps the earliest cell on ties). -/
theorem scanLE_earliest (g : Grid) (q : ℕ × ℕ) (e : List ℕ)
    (hq : calculate_entropy_at_cell g q.1 q.2 = some e) :
    ∀ (l1 l2 : List (ℕ × ℕ)) (acc : (ℕ × ℕ) × List ℕ),
      (l1 ++ q :: l2).Nodup → acc.1 ∉ l1 ++ q :: l2 →
      (scanLE g (l1 ++ q :: l2) acc).1 ∈ l2 →
      (scanLE g (l1 ++ q :: l2) acc).2.length < e.length := by
  intro l1
  induction l1 with
  | nil =>
    intro l2 acc hnd hacc hmem
    simp only [List.nil_append] at hnd hacc hmem ⊢
    have hqnot : q ∉ l2 := by
      rcases List.nodup_cons.mp hnd with ⟨hq2, -⟩; exact hq2
    have haccq : acc.1 ≠ q ∧ acc.1 ∉ l2 := by
      constructor
      · intro hcontra; exact hacc (hcontra ▸ List.mem_cons_self _ _)
      · intro hcontra; exact hacc (List.mem_cons_of_mem _ hcontra)
    simp only [scanLE, hq] at hmem ⊢
    by_cases hlt : e.length < acc.2.length
    · rw [if_pos hlt] at hmem ⊢
      have hne : (scanLE g l2 (q, e)).1 ≠ (q, e).1 := by
        intro hcontra
        rw [hcontra] at hmem
        exact hqnot hmem
      exact scanLE_strict g l2 (q, e) hne
    · rw [if_neg hlt] at hmem ⊢
      have hne : (scanLE g l2 acc).1 ≠ acc.1 := by
        intro hcontra
        rw [hcontra] at hmem
        exact haccq.2 hmem
      exact lt_of_lt_of_le (scanLE_strict g l2 acc hne) (by omega)
  | cons p l1' ih =>
    intro l2 acc hnd hacc hmem
    simp only [List.cons_append] at hnd hacc hmem ⊢
    have hnd' : (l1' ++ q :: l2).Nodup := (List.nodup_cons.mp hnd).2
    have hpnot : p ∉ l1' ++ q :: l2 := (List.nodup_cons.mp hnd).1
    have haccnot : acc.1 ∉ l1' ++ q :: l2 := fun h => hacc (List.mem_cons_of_mem _ h)
    rcases he : calculate_entropy_at_cell g p.1 p.2 with _ | e'
    · simp only [scanLE, he] at hmem ⊢
      exact ih l2 acc hnd' haccnot hmem
    · simp only [scanLE, he] at hmem ⊢
      by_cases hlt : e'.length < acc.2.length
      · rw [if_pos hlt] at hmem ⊢
        exact ih l2 (p, e') hnd' hpnot hmem
      · rw [if_neg hlt] at hmem ⊢
        exact ih l2 acc hnd' haccnot hmem

/-- Membership in the scan order is exactly the 81 cells. -/
theorem mem_scanPositions {p : ℕ × ℕ} : p ∈ scanPositions ↔ p.1 < 9 ∧ p.2 < 9 := by
  rcases p with ⟨r, c⟩
  constructor
  · intro h
    simp only [scanPositions, List.mem_flatMap, List.mem_map, List.mem_range] at h
    obtain ⟨r', hr', c', hc', heq⟩ := h
    cases heq
    exact ⟨hr', hc'⟩
  · rintro ⟨hr, hc⟩
    simp only [scanPositions, List.mem_flatMap, List.mem_map, List.mem_range]
    exact ⟨r, hr, c, hc, rfl⟩

/-- The scan order has no repeated positions. -/
theorem scanPositions_nodup : scanPositions.Nodup := by decide

/-- The sentinel starting position is never scanned. -/
theorem sentinel_not_mem : ((10, 10) : ℕ × ℕ) ∉ scanPositions := by decide

/-- The entropy list is a sublist of `0, 1, ..., 9`. -/
theorem entropy_sublist {g : Grid} {row col : ℕ} {e : List ℕ}
    (h : calculate_entropy_at_cell g row col = some e) : e.Sublist (List.range 10) := by
  unfold calculate_entropy_at_cell at h
  split at h
  · exact absurd h (by simp)
  · rw [Option.some.injEq] at h
    subst h
    exact ((List.filter_sublist _).trans (List.filter_sublist _)).trans (List.filter_sublist _)

/-- An empty cell of the board proper has at most nine candidates. -/
theorem entropy_length_le_nine {g : Grid} {row col : ℕ} {e : List ℕ} (hr : row < 9)
    (hc : col < 9) (h : calculate_entropy_at_cell g row col = some e) : e.length ≤ 9 := by
  have hsub := entropy_sublist h
  have hlen := hsub.length_le
  simp only [List.length_range] at hlen
  rcases Nat.lt_or_ge e.length 10 with h10 | h10
  · omega
  · exfalso
    have heq : e = List.range 10 := hsub.eq_of_length (by simp only [List.length_range]; omega)
    have h0 : (0 : ℕ) ∈ e := by rw [heq]; simp
    rw [mem_entropy_iff h] at h0
    have hcell : cellAt g row col = 0 := by
      by_contra hne
      rw [entropy_none_iff.mpr hne] at h
      exact absurd h (by simp)
    exact h0.2.1 (hcell ▸ cellAt_mem_get_row hr hc)

/-- Claim C7: `find_least_entropy` returns `None` iff no cell is empty;
otherwise it returns an empty cell of minimum candidate count, with ties
resolved to the earliest cell in row-major scan order (every empty cell
scanned strictly earlier has strictly more candidates), including the case
where the returned candidate list is empty. -/
theorem C7_find_least_entropy_spec (g : Grid) :
    (find_least_entropy g = none ↔ ∀ r, r < 9 → ∀ c, c < 9 → cellAt g r c ≠ 0)
    ∧ (∀ p e, find_least_entropy g = some (p, e) →
        cellAt g p.1 p.2 = 0 ∧
        calculate_entropy_at_cell g p.1 p.2 = some e ∧
        (∀ q, q ∈ scanPositions → ∀ e', calculate_entropy_at_cell g q.1 q.2 = some e' →
          e.length ≤ e'.length) ∧
        (∀ l1 l2, scanPositions = l1 ++ p :: l2 → ∀ q ∈ l1,
          ∀ e', calculate_entropy_at_cell g q.1 q.2 = some e' → e.length < e'.length)) := by
  have hrdef : find_least_entropy g =
      (if (scanLE g scanPositions ((10, 10), List.range 10)).1 = (10, 10) then none
       else some (scanLE g scanPositions ((10, 10), List.range 10))) := rfl
  constructor
  · constructor
    · intro hnone r hr c hc hcell
      rw [hrdef] at hnone
      split at hnone
      · next hsent =>
        obtain ⟨e, he⟩ : ∃ e, calculate_entropy_at_cell g r c = some e := by
          rcases h : calculate_entropy_at_cell g r c with _ | e
          · exact absurd (entropy_none_iff.mp h) (by simp [hcell])
          · exact ⟨e, rfl⟩
        have hmin := scanLE_min g scanPositions ((10, 10), List.range 10) (r, c)
          (mem_scanPositions.mpr ⟨hr, hc⟩) e he
        have hle9 : e.length ≤ 9 := entropy_length_le_nine hr hc he
        rcases scanLE_provenance g scanPositions ((10, 10), List.range 10) with hinit | hupd
        · rw [hinit] at hmin
          simp only [List.length_range] at hmin
          omega
        · obtain ⟨p', hp', e', -, hr'⟩ := hupd
          rw [hr'] at hsent
          exact sentinel_not_mem (hsent ▸ hp')
      · exact absurd hnone (by simp)
    · intro hfull
      have hscan : scanLE g scanPositions ((10, 10), List.range 10) = ((10, 10), List.range 10) :=
        scanLE_of_no_empty
          (fun p hp => hfull p.1 (mem_scanPositions.mp hp).1 p.2 (mem_scanPositions.mp hp).2) _
      rw [hrdef, hscan]
      simp
  · intro p e hsome
    rw [hrdef] at hsome
    split at hsome
    · exact absurd hsome (by simp)
    · next hsent =>
      rw [Option.some.injEq] at hsome
      rcases scanLE_provenance g scanPositions ((10, 10), List.range 10) with hinit | hupd
      · exact absurd (congrArg Prod.fst hinit) hsent
      · obtain ⟨p', hp', e', he', hr'⟩ := hupd
        rw [hr'] at hsome
        have hpeq : p' = p := congrArg Prod.fst hsome
        have heeq : e' = e := congrArg Prod.snd hsome
        rw [hpeq] at hp'
        rw [hpeq, heeq] at he'
        rw [hpeq, heeq] at hr'
        have hcell : cellAt g p.1 p.2 = 0 := by
          by_contra hne
          rw [entropy_none_iff.mpr hne] at he'
          exact absurd he' (by simp)
        refine ⟨hcell, he', ?_, ?_⟩
        · intro q hq e2 he2
          have := scanLE_min g scanPositions ((10, 10), List.range 10) q hq e2 he2
          rw [hr'] at this
          exact this
        · intro l1 l2 hsplit q hq e2 he2
          obtain ⟨s, t, hl1⟩ := List.append_of_mem hq
          have hlist : scanPositions = s ++ q :: (t ++ p :: l2) := by
            rw [hsplit, hl1]; simp
          have hmem : (scanLE g (s ++ q :: (t ++ p :: l2)) ((10, 10), List.range 10)).1
              ∈ t ++ p :: l2 := by
            rw [← hlist, hr']
            exact List.mem_append_right _ (List.mem_cons_self _ _)
          have := scanLE_earliest g q e2 he2 s (t ++ p :: l2) ((10, 10), List.range 10)
            (hlist ▸ scanPositions_nodup) (hlist ▸ sentinel_not_mem) hmem
          rw [← hlist, hr'] at this
          exact this

/-- `Board::validate_board`: for `i` and `j` ranging over `0..3` it checks the
tile `(i, j)` and — only for `i < 3` — row `i` and column `i`, comparing each
unit's length against the size of the `HashSet` of its values (here: the
length of the deduplicated list); reports valid iff no check fails. -/
def validate_board (g : Grid) : Bool :=
  (List.range 3).all fun i => (List.range 3).all fun j =>
    ((get_tile g (i, j)).dedup.length == (get_tile g (i, j)).length)
    && ((get_row g i).dedup.length == (get_row g i).length)
    && ((get_column g i).dedup.length == (get_column g i).length)

/-- A list has full-length deduplication exactly when it has no duplicates. -/
theorem dedup_length_eq_iff {l : List ℕ} : l.dedup.length = l.length ↔ l.Nodup := by
  constructor
  · intro h
    have heq := (List.dedup_sublist l).eq_of_length h
    exact heq ▸ l.nodup_dedup
  · intro h; rw [List.dedup_eq_self.mpr h]

/-- The canonical solved grid of the classic example puzzle. -/
def classicSolvedGrid : Grid :=
  [5,3,4,6,7,8,9,1,2,
   6,7,2,1,9,5,3,4,8,
   1,9,8,3,4,2,5,6,7,
   8,5,9,7,6,1,4,2,3,
   4,2,6,8,5,3,7,9,1,
   7,1,3,9,2,4,8,5,6,
   9,6,1,5,3,7,2,8,4,
   2,8,7,4,1,9,6,3,5,
   3,4,5,2,8,6,1,7,9]

/-- `classicSolvedGrid` with cells `(7,0)` and `(8,0)` swapped: rows 7 and 8
then both contain a duplicate digit, while every tile, every column, and
rows 0–2 remain duplicate-free. -/
def tamperedGrid : Grid :=
  [5,3,4,6,7,8,9,1,2,
   6,7,2,1,9,5,3,4,8,
   1,9,8,3,4,2,5,6,7,
   8,5,9,7,6,1,4,2,3,
   4,2,6,8,5,3,7,9,1,
   7,1,3,9,2,4,8,5,6,
   9,6,1,5,3,7,2,8,4,
   3,8,7,4,1,9,6,3,5,
   2,4,5,2,8,6,1,7,9]

/-- Counterexample to claim C6: `tamperedGrid` has no empty cell and a
duplicate digit in row 7 (and row 8), yet the validator reports it valid —
the validator never inspects rows 3–8 or columns 3–8. -/
theorem C6_counterexample :
    validate_board tamperedGrid = true ∧
    (∀ v ∈ tamperedGrid, v ≠ 0) ∧
    ¬ (get_row tamperedGrid 7).Nodup := by decide

/-- Claim C6 as amended: the validator checks every 3×3 tile, but only rows
0–2 and columns 0–2, for repeated values (a repeated value includes `0`);
it reports valid exactly when all those checked units are duplicate-free. -/
theorem C6_amended_validator_spec (g : Grid) :
    validate_board g = true ↔
      ((∀ i, i < 3 → ∀ j, j < 3 → (get_tile g (i, j)).Nodup) ∧
       (∀ i, i < 3 → (get_row g i).Nodup ∧ (get_column g i).Nodup)) := by
  unfold validate_board
  simp only [List.all_eq_true, List.mem_range, Bool.and_eq_true, beq_iff_eq]
  constructor
  · intro h
    constructor
    · intro i hi j hj
      exact dedup_length_eq_iff.mp (h i hi j hj).1.1
    · intro i hi
      exact ⟨dedup_length_eq_iff.mp (h i hi 0 (by omega)).1.2,
             dedup_length_eq_iff.mp (h i hi 0 (by omega)).2⟩
  · rintro ⟨htile, hrc⟩ i hi j hj
    exact ⟨⟨dedup_length_eq_iff.mpr (htile i hi j hj),
            dedup_length_eq_iff.mpr (hrc i hi).1⟩,
           dedup_length_eq_iff.mpr (hrc i hi).2⟩

/-- Witness for C6's amended theorem: the untampered solved grid is reported
valid. -/
theorem C6_amended_witness : validate_board classicSolvedGrid = true :=
  (C6_amended_validator_spec classicSolvedGrid).mpr (by decide)

/-- The classic example puzzle of the source comments
(`"530070000600195000098000060800060003400803001700020006060000280000419005000080079"`). -/
def classicPuzzle : Grid :=
  [5,3,0,0,7,0,0,0,0,
   6,0,0,1,9,5,0,0,0,
   0,9,8,0,0,0,0,6,0,
   8,0,0,0,6,0,0,0,3,
   4,0,0,8,0,3,0,0,1,
   7,0,0,0,2,0,0,0,6,
   0,6,0,0,0,0,2,8,0,
   0,0,0,4,1,9,0,0,5,
   0,0,0,0,8,0,0,7,9]

/-- Witness for C8 at a concrete input: on the classic puzzle, the filled cell
`(0,0)` has no candidate set, and the empty cell `(0,2)`'s candidates
`[1, 2, 4]` exclude zero. -/
theorem C8_witness :
    calculate_entropy_at_cell classicPuzzle 0 0 = none ∧ (0 : ℕ) ∉ ([1, 2, 4] : List ℕ) := by
  have h0 := C8_calculate_entropy_spec classicPuzzle 0 0 (by decide) (by decide)
  have h2 := C8_calculate_entropy_spec classicPuzzle 0 2 (by decide) (by decide)
  exact ⟨h0.1.mpr (by decide), (h2.2 [1, 2, 4] (by decide)).2⟩

/-- Witness for C7 at a concrete input: on the classic puzzle the selector
returns cell `(4,4)` with the singleton candidate list `[5]`, and that cell is
indeed empty with exactly those candidates. -/
theorem C7_witness :
    cellAt classicPuzzle 4 4 = 0 ∧
    calculate_entropy_at_cell classicPuzzle 4 4 = some [5] := by
  have h := (C7_find_least_entropy_spec classicPuzzle).2 (4, 4) [5] (by decide)
  exact ⟨h.1, h.2.1⟩

/-! ## Cell removal (`remove_board_cells` of `src/main.rs`)

The board travels as an 81-character digit string in the source; a digit char
is one cell, so clearing `rand_index..rand_index+1` to `"0"` is `List.set` on
the cell list.  The seeded `ChaCha8Rng` is abstracted into the sequence of
values it produces: the one `gen_range(minimum_hints..maximum_hints)` draw and
the stream of `gen_range(0..81)` draws.  The inner `while` loop re-rolls until
it hits a not-yet-cleared cell and need not terminate, so it carries fuel;
`none` models a run that fails the `assert!` or never terminates. -/

/-- The random draws consumed by `remove_board_cells`: the single hint-count
draw (`i32`, hence `ℤ`) and the stream of cell-index draws. -/
structure RemovalRng where
  firstDraw : ℤ
  idx : ℕ → ℕ

/-- The `while` loop: consume index draws until one names a cell that is not
already `0`; returns the chosen index and the next stream position. -/
def pickFresh (g : Grid) (idx : ℕ → ℕ) : ℕ → ℕ → Option (ℕ × ℕ)
  | _, 0 => none
  | k, fuel + 1 =>
    if g.getD (idx k) 0 = 0 then pickFresh g idx (k + 1) fuel
    else some (idx k, k + 1)

/-- The `for _ in 0..test` loop: clear `n` fresh cells, returning the final
grid and the cleared indices in clearing order. -/
def clearCells (idx : ℕ → ℕ) (fuel : ℕ) : Grid → ℕ → ℕ → Option (Grid × List ℕ)
  | g, _, 0 => some (g, [])
  | g, k, n + 1 =>
    match pickFresh g idx k fuel with
    | none => none
    | some (i, k') =>
      match clearCells idx fuel (g.set i 0) k' n with
      | none => none
      | some (g', cleared) => some (g', i :: cleared)

/-- `remove_board_cells`: asserts `minimum_hints < maximum_hints`, draws
`test = 81 - gen_range(minimum_hints..maximum_hints)`, clears `test` fresh
cells, and returns `test` (the cleared count). -/
def remove_board_cells (g : Grid) (rng : RemovalRng)
    (minimum_hints maximum_hints : ℤ) (fuel : ℕ) : Option (Grid × List ℕ × ℤ) :=
  if minimum_hints < maximum_hints then
    let test : ℤ := 81 - rng.firstDraw
    match clearCells rng.idx fuel g 0 test.toNat with
    | none => none
    | some (g', cleared) => some (g', cleared, test)
  else none

/-- The number of hint (non-zero) cells of a grid. -/
def hintCount (g : Grid) : ℕ := g.countP (fun v => !(v == 0))

/-- A successful `while` loop pick names a currently non-zero cell. -/
theorem pickFresh_nonzero {g : Grid} {idx : ℕ → ℕ} :
    ∀ {k fuel i k'}, pickFresh g idx k fuel = some (i, k') → g.getD i 0 ≠ 0 := by
  intro k fuel
  induction fuel generalizing k with
  | zero => intro i k' h; exact absurd h (by simp [pickFresh])
  | succ fuel ih =>
    intro i k' h
    unfold pickFresh at h
    split at h
    · exact ih h
    · next hnz =>
      rw [Option.some.injEq] at h
      have hik : idx k = i := congrArg Prod.fst h
      rw [← hik]
      exact hnz

/-- Clearing one non-zero cell decreases the hint count by exactly one. -/
theorem hintCount_set_zero :
    ∀ (g : Grid) (i : ℕ), g.getD i 0 ≠ 0 → hintCount (g.set i 0) + 1 = hintCount g := by
  intro g
  induction g with
  | nil => intro i h; exact absurd rfl h
  | cons a t ih =>
    intro i h
    cases i with
    | zero =>
      have ha : a ≠ 0 := by simpa [List.getD] using h
      simp [hintCount, List.set, List.countP_cons, ha]
    | succ i =>
      have ht : t.getD i 0 ≠ 0 := by simpa [List.getD] using h
      have := ih i ht
      simp only [hintCount, List.set, List.countP_cons] at this ⊢
      omega

/-- Setting a cell to zero never turns a zero cell non-zero. -/
theorem getD_set_zero_ne {g : Grid} {i j : ℕ} (h : (g.set i 0).getD j 0 ≠ 0) :
    g.getD j 0 ≠ 0 ∧ j ≠ i := by
  by_cases hij : j = i
  · subst hij
    by_cases hlen : j < g.length
    · exact absurd (by rw [List.getD_eq_getElem?_getD, List.getElem?_set_self hlen]; rfl) h
    · have hset : (g.set j 0) = g := List.set_eq_of_length_le (by omega)
      rw [hset] at h
      have : g.getD j 0 = 0 := by
        rw [List.getD_eq_getElem?_getD, List.getElem?_eq_none_iff.mpr (by omega)]
        rfl
      exact absurd this h
  · refine ⟨?_, hij⟩
    rwa [List.getD_eq_getElem?_getD,
      List.getElem?_set_ne (fun hcontra => hij hcontra.symm),
      ← List.getD_eq_getElem?_getD] at h

/-- Clearing-loop invariants: a successful run clears exactly `n` cells, all
distinct, all non-zero in the starting grid, and reduces the hint count by
`n`. -/
theorem clearCells_spec (idx : ℕ → ℕ) (fuel : ℕ) :
    ∀ (n : ℕ) (g : Grid) (k : ℕ) (g' : Grid) (cleared : List ℕ),
      clearCells idx fuel g k n = some (g', cleared) →
      cleared.length = n ∧ cleared.Nodup ∧ (∀ j ∈ cleared, g.getD j 0 ≠ 0) ∧
        hintCount g' + n = hintCount g := by
  intro n
  induction n with
  | zero =>
    intro g k g' cleared h
    simp only [clearCells, Option.some.injEq] at h
    have hg : g = g' := congrArg Prod.fst h
    have hc : ([] : List ℕ) = cleared := congrArg Prod.snd h
    subst hg
    rw [← hc]
    simp
  | succ n ih =>
    intro g k g' cleared h
    unfold clearCells at h
    split at h
    · simp at h
    · rename_i i k' hp
      split at h
      · simp at h
      · rename_i g'' cleared' hc
        simp only [Option.some.injEq] at h
        have hg : g'' = g' := congrArg Prod.fst h
        have hcl : i :: cleared' = cleared := congrArg Prod.snd h
        subst hg
        obtain ⟨hlen, hnd, hmem, hcount⟩ := ih (g.set i 0) k' g'' cleared' hc
        have hinz : g.getD i 0 ≠ 0 := pickFresh_nonzero hp
        rw [← hcl]
        refine ⟨by simp [hlen], ?_, ?_, ?_⟩
        · rw [List.nodup_cons]
          exact ⟨fun hmem' => (getD_set_zero_ne (hmem i hmem')).2 rfl, hnd⟩
        · intro j hj
          rcases List.mem_cons.mp hj with rfl | hj'
          · exact hinz
          · exact (getD_set_zero_ne (hmem j hj')).1
        · rw [← hintCount_set_zero g i hinz]
          omega

/-- Counterexample to claim C5: with `minimum_hints = 20 < 30 = maximum_hints`,
first draw `25` and the identity index stream, the function clears 56 cells
and returns `56` — the cleared count — while the number of hint cells
remaining is `25 = 81 − cleared_count ≠ 56`. -/
theorem C5_counterexample :
    (remove_board_cells classicSolvedGrid ⟨25, fun k => k⟩ 20 30 200).map
      (fun r => (r.2.2, r.2.1.length, hintCount r.1)) = some (56, 56, 25) ∧
    (56 : ℤ) ≠ 81 - 56 := ⟨by decide, by decide⟩

/-- Claim C5 as amended: for `minimum_hints < maximum_hints`, every
terminating run returns the number of cells cleared (not the hint count);
this cleared count `ret` satisfies
`81 − maximum_hints < ret ≤ 81 − minimum_hints`, every cleared cell is
distinct, and the remaining hint count is `hintCount g − ret` (so the hint
count, not the return value, lies in `[minimum_hints, maximum_hints)` for a
complete input grid). -/
theorem C5_amended_removal_spec (g : Grid) (rng : RemovalRng)
    (minimum_hints maximum_hints : ℤ) (fuel : ℕ)
    (hdraw1 : minimum_hints ≤ rng.firstDraw) (hdraw2 : rng.firstDraw < maximum_hints)
    (g' : Grid) (cleared : List ℕ) (ret : ℤ)
    (h : remove_board_cells g rng minimum_hints maximum_hints fuel = some (g', cleared, ret)) :
    ret = 81 - rng.firstDraw ∧
    cleared.length = ret.toNat ∧
    cleared.Nodup ∧
    81 - maximum_hints < ret ∧ ret ≤ 81 - minimum_hints ∧
    hintCount g' + cleared.length = hintCount g := by
  unfold remove_board_cells at h
  rw [if_pos (by omega)] at h
  simp only [] at h
  split at h
  · simp at h
  · rename_i g'' cleared'' hrun
    simp only [Option.some.injEq] at h
    have hg : g'' = g' := congrArg Prod.fst h
    have hcl : cleared'' = cleared := congrArg Prod.fst (congrArg Prod.snd h)
    have hret : (81 - rng.firstDraw : ℤ) = ret := congrArg Prod.snd (congrArg Prod.snd h)
    subst hg
    rw [hcl] at hrun
    obtain ⟨hlen, hnd, -, hcount⟩ :=
      clearCells_spec rng.idx fuel (81 - rng.firstDraw).toNat g 0 g'' cleared hrun
    refine ⟨hret.symm, ?_, hnd, by omega, by omega, by omega⟩
    rw [← hret]
    exact hlen

/-- Witness for C5's amended theorem: the concrete run of the counterexample
(draw 25, identity index stream) clears the 56 distinct cells `0, …, 55` of
the solved classic grid and lowers the hint count from 81 to 25. -/
theorem C5_amended_witness :
    hintCount (List.replicate 56 0 ++ classicSolvedGrid.drop 56) + (List.range 56).length
      = hintCount classicSolvedGrid :=
  (C5_amended_removal_spec classicSolvedGrid ⟨25, fun k => k⟩ 20 30 200
    (by decide) (by decide) (List.replicate 56 0 ++ classicSolvedGrid.drop 56)
    (List.range 56) 56 (by decide)).2.2.2.2.2

/-! ## Board generation (`generate_board` of `src/main.rs`)

The seeded `ChaCha8Rng` is consumed only through `shuffle`, whose outcome is
always a permutation of its input.  The four shuffles are therefore abstracted
into four function parameters: `base_row` (the shuffled first row, a
permutation of the digits `0..=8`), `co` (the column order, permuting columns
within each stack), `ro` (the row order, permuting rows within each band) and
`dp` (the digit relabeling `shuffled_numbers`, an injection of `0..=8` into
`1..=9`).  Quantifying over all such parameters covers the outcome of every
64-bit seed. -/

/-- The nine rows before shuffling: `rows[0]` is the shuffled base row, and
`rows[i]` is `rows[i-1]` rotated left by 1 when `i % 3 == 0` and by 3
otherwise (`rotate_left(k)` reads the previous row at `(c + k) % 9`). -/
def genRows (base_row : ℕ → ℕ) : ℕ → ℕ → ℕ
  | 0 => base_row
  | i + 1 => fun c => genRows base_row i ((c + (if (i + 1) % 3 = 0 then 1 else 3)) % 9)

/-- Cell `(r, c)` of the generated board: the row shuffle selects source row
`ro r`, the column shuffle selects source column `co c`, and the digit
relabeling `shuffled_numbers[cell]` is applied last. -/
def generate_board_cell (base_row co ro dp : ℕ → ℕ) (r c : ℕ) : ℕ :=
  dp (genRows base_row (ro r) (co c))

/-- The generated board, row-major, as produced by
`shuffled_row_order.flat_map(|i| rows[i].map(|cell| shuffled_numbers[cell]))`. -/
def generate_board (base_row co ro dp : ℕ → ℕ) : Grid :=
  (List.range 81).map (fun i => generate_board_cell base_row co ro dp (i / 9) (i % 9))

/-- The accumulated left-rotation of row `i` relative to the base row. -/
def rotOffset : ℕ → ℕ
  | 0 => 0
  | i + 1 => (rotOffset i + (if (i + 1) % 3 = 0 then 1 else 3)) % 9

/-- Each derived row reads the base row at the accumulated rotation offset. -/
theorem genRows_eq (base_row : ℕ → ℕ) :
    ∀ i, ∀ c < 9, genRows base_row i c = base_row ((c + rotOffset i) % 9) := by
  intro i
  induction i with
  | zero => intro c hc; simp [genRows, rotOffset, Nat.mod_eq_of_lt hc]
  | succ i ih =>
    intro c hc
    have hstep : genRows base_row (i + 1) c
        = genRows base_row i ((c + (if (i + 1) % 3 = 0 then 1 else 3)) % 9) := rfl
    have hoff : rotOffset (i + 1)
        = (rotOffset i + (if (i + 1) % 3 = 0 then 1 else 3)) % 9 := rfl
    rw [hstep, ih _ (Nat.mod_lt _ (by omega)), hoff]
    congr 1
    omega

/-- The rotation offset stays below 9. -/
theorem rotOffset_lt (i : ℕ) : rotOffset i < 9 := by
  cases i with
  | zero => simp [rotOffset]
  | succ i => unfold rotOffset; exact Nat.mod_lt _ (by omega)

/-- The concrete offsets of the nine rows. -/
theorem rotOffset_values : ∀ i < 9, rotOffset i = [0, 3, 6, 7, 1, 4, 5, 8, 2].getD i 0 := by
  decide

/-- The nine row offsets are pairwise distinct, hence columns are valid. -/
theorem rotOffset_inj : ∀ i < 9, ∀ j < 9, rotOffset i = rotOffset j → i = j := by
  decide

/-- Within band `b` the offsets are exactly the residues `≡ b (mod 3)`,
the key fact making the tiles valid. -/
theorem rotOffset_mod3 : ∀ i < 9, rotOffset i % 3 = i / 3 := by
  decide

/-- A duplicate-free list of nine values from `1..=9` contains every digit
`1..=9` exactly once. -/
theorem count_eq_one_of_nine {l : List ℕ} (hlen : l.length = 9) (hnd : l.Nodup)
    (hmem : ∀ v ∈ l, 1 ≤ v ∧ v ≤ 9) :
    ∀ d, 1 ≤ d → d ≤ 9 → l.count d = 1 := by
  intro d h1 h9
  have hsub : l.toFinset ⊆ Finset.Icc 1 9 := by
    intro v hv
    rw [List.mem_toFinset] at hv
    exact Finset.mem_Icc.mpr (hmem v hv)
  have hcard : l.toFinset.card = 9 := by
    rw [List.toFinset_card_of_nodup hnd, hlen]
  have heq : l.toFinset = Finset.Icc 1 9 :=
    Finset.eq_of_subset_of_card_le hsub (by rw [hcard, Nat.card_Icc])
  have hd : d ∈ l := by
    rw [← List.mem_toFinset, heq]
    exact Finset.mem_Icc.mpr ⟨h1, h9⟩
  exact List.count_eq_one_of_mem hnd hd

/-- Reading the generated board at a linear index. -/
theorem generate_board_getD (base_row co ro dp : ℕ → ℕ) {i : ℕ} (hi : i < 81) :
    (generate_board base_row co ro dp).getD i 0
      = generate_board_cell base_row co ro dp (i / 9) (i % 9) := by
  unfold generate_board
  rw [List.getD_eq_getElem?_getD, List.getElem?_map, List.getElem?_range hi]
  rfl

/-- The row indices of row `r`. -/
theorem row_indices : ∀ r < 9, (List.range 81).filter (fun i => i / 9 == r)
    = (List.range 9).map (fun c => r * 9 + c) := by decide

/-- The column indices of column `c`. -/
theorem col_indices : ∀ c < 9, (List.range 81).filter (fun i => i % 9 == c)
    = (List.range 9).map (fun j => j * 9 + c) := by decide

/-- The cell indices of tile `(tr, tc)`, in row-major order. -/
theorem tile_indices : ∀ tr < 3, ∀ tc < 3,
    (List.range 81).filter (fun i => i / 27 == tr && (i % 9) / 3 == tc)
    = (List.range 9).map (fun j => (tr * 3 + j / 3) * 9 + (tc * 3 + j % 3)) := by decide

/-- A row of the generated board, cell by cell. -/
theorem get_row_generate (base_row co ro dp : ℕ → ℕ) {r : ℕ} (hr : r < 9) :
    get_row (generate_board base_row co ro dp) r
      = (List.range 9).map (fun c => generate_board_cell base_row co ro dp r c) := by
  unfold get_row
  rw [row_indices r hr, List.map_map]
  apply List.map_congr_left
  intro c hc
  rw [List.mem_range] at hc
  show (generate_board base_row co ro dp).getD (r * 9 + c) 0 = _
  rw [generate_board_getD _ _ _ _ (by omega)]
  have h1 : (r * 9 + c) / 9 = r := by omega
  have h2 : (r * 9 + c) % 9 = c := by omega
  rw [h1, h2]

/-- A column of the generated board, cell by cell. -/
theorem get_column_generate (base_row co ro dp : ℕ → ℕ) {c : ℕ} (hc : c < 9) :
    get_column (generate_board base_row co ro dp) c
      = (List.range 9).map (fun r => generate_board_cell base_row co ro dp r c) := by
  unfold get_column
  rw [col_indices c hc, List.map_map]
  apply List.map_congr_left
  intro r hr
  rw [List.mem_range] at hr
  show (generate_board base_row co ro dp).getD (r * 9 + c) 0 = _
  rw [generate_board_getD _ _ _ _ (by omega)]
  have h1 : (r * 9 + c) / 9 = r := by omega
  have h2 : (r * 9 + c) % 9 = c := by omega
  rw [h1, h2]

/-- A tile of the generated board, cell by cell. -/
theorem get_tile_generate (base_row co ro dp : ℕ → ℕ) {tr tc : ℕ} (htr : tr < 3)
    (htc : tc < 3) :
    get_tile (generate_board base_row co ro dp) (tr, tc)
      = (List.range 9).map (fun j =>
          generate_board_cell base_row co ro dp (tr * 3 + j / 3) (tc * 3 + j % 3)) := by
  unfold get_tile
  rw [show ((tr, tc).1 : ℕ) = tr from rfl, show ((tr, tc).2 : ℕ) = tc from rfl,
    tile_indices tr htr tc htc, List.map_map]
  apply List.map_congr_left
  intro j hj
  rw [List.mem_range] at hj
  show (generate_board base_row co ro dp).getD ((tr * 3 + j / 3) * 9 + (tc * 3 + j % 3)) 0 = _
  rw [generate_board_getD _ _ _ _ (by omega)]
  have h1 : ((tr * 3 + j / 3) * 9 + (tc * 3 + j % 3)) / 9 = tr * 3 + j / 3 := by omega
  have h2 : ((tr * 3 + j / 3) * 9 + (tc * 3 + j % 3)) % 9 = tc * 3 + j % 3 := by omega
  rw [h1, h2]

/-- Equal generated cells have equal source-grid indices (the relabeling and
the base row both cancel). -/
theorem generate_cell_index_eq {base_row co ro dp : ℕ → ℕ}
    (hbase_lt : ∀ v, v < 9 → base_row v < 9)
    (hbase_inj : ∀ v, v < 9 → ∀ w, w < 9 → base_row v = base_row w → v = w)
    (hdp_inj : ∀ v, v < 9 → ∀ w, w < 9 → dp v = dp w → v = w)
    {r₁ c₁ r₂ c₂ : ℕ} (hco₁ : co c₁ < 9) (hco₂ : co c₂ < 9)
    (h : generate_board_cell base_row co ro dp r₁ c₁
        = generate_board_cell base_row co ro dp r₂ c₂) :
    (co c₁ + rotOffset (ro r₁)) % 9 = (co c₂ + rotOffset (ro r₂)) % 9 := by
  unfold generate_board_cell at h
  rw [genRows_eq base_row (ro r₁) (co c₁) hco₁, genRows_eq base_row (ro r₂) (co c₂) hco₂] at h
  have hX₁ : (co c₁ + rotOffset (ro r₁)) % 9 < 9 := Nat.mod_lt _ (by omega)
  have hX₂ : (co c₂ + rotOffset (ro r₂)) % 9 < 9 := Nat.mod_lt _ (by omega)
  exact hbase_inj _ hX₁ _ hX₂
    (hdp_inj _ (hbase_lt _ hX₁) _ (hbase_lt _ hX₂) h)

/-- Every generated cell is a digit `1..=9`. -/
theorem generate_cell_range {base_row co ro dp : ℕ → ℕ}
    (hbase_lt : ∀ v, v < 9 → base_row v < 9)
    (hdp_range : ∀ v, v < 9 → 1 ≤ dp v ∧ dp v ≤ 9)
    {r c : ℕ} (hco : co c < 9) :
    1 ≤ generate_board_cell base_row co ro dp r c
      ∧ generate_board_cell base_row co ro dp r c ≤ 9 := by
  unfold generate_board_cell
  rw [genRows_eq base_row (ro r) (co c) hco]
  exact hdp_range _ (hbase_lt _ (Nat.mod_lt _ (by omega)))

/-- Claim C4: for every outcome of the seeded shuffles — every base-row
permutation, every within-stack column order, every within-band row order and
every digit relabeling, hence for every 64-bit seed — the generated grid is
rule-valid: no cell is empty and every row, column and 3×3 tile contains each
digit `1..9` exactly once. -/
theorem C4_generator_valid
    (base_row co ro dp : ℕ → ℕ)
    (hbase_lt : ∀ v, v < 9 → base_row v < 9)
    (hbase_inj : ∀ v, v < 9 → ∀ w, w < 9 → base_row v = base_row w → v = w)
    (hco_stack : ∀ c, c < 9 → co c / 3 = c / 3)
    (hco_inj : ∀ c, c < 9 → ∀ c', c' < 9 → co c = co c' → c = c')
    (hro_band : ∀ r, r < 9 → ro r / 3 = r / 3)
    (hro_inj : ∀ r, r < 9 → ∀ r', r' < 9 → ro r = ro r' → r = r')
    (hdp_range : ∀ v, v < 9 → 1 ≤ dp v ∧ dp v ≤ 9)
    (hdp_inj : ∀ v, v < 9 → ∀ w, w < 9 → dp v = dp w → v = w) :
    (∀ v ∈ generate_board base_row co ro dp, 1 ≤ v ∧ v ≤ 9) ∧
    (∀ r, r < 9 → ∀ d, 1 ≤ d → d ≤ 9 →
      (get_row (generate_board base_row co ro dp) r).count d = 1) ∧
    (∀ c, c < 9 → ∀ d, 1 ≤ d → d ≤ 9 →
      (get_column (generate_board base_row co ro dp) c).count d = 1) ∧
    (∀ tr, tr < 3 → ∀ tc, tc < 3 → ∀ d, 1 ≤ d → d ≤ 9 →
      (get_tile (generate_board base_row co ro dp) (tr, tc)).count d = 1) := by
  have hco_lt : ∀ c, c < 9 → co c < 9 := fun c hc => by have := hco_stack c hc; omega
  have hro_lt : ∀ r, r < 9 → ro r < 9 := fun r hr => by have := hro_band r hr; omega
  refine ⟨?_, ?_, ?_, ?_⟩
  · intro v hv
    unfold generate_board at hv
    rw [List.mem_map] at hv
    obtain ⟨i, hi, hvi⟩ := hv
    rw [List.mem_range] at hi
    rw [← hvi]
    exact generate_cell_range hbase_lt hdp_range (hco_lt _ (by omega))
  · intro r hr d h1 h9
    rw [get_row_generate base_row co ro dp hr]
    refine count_eq_one_of_nine (by simp) ?_ ?_ d h1 h9
    · rw [List.nodup_map_iff_inj_on (List.nodup_range 9)]
      intro c₁ hc₁ c₂ hc₂ heq
      rw [List.mem_range] at hc₁ hc₂
      have hidx := generate_cell_index_eq hbase_lt hbase_inj hdp_inj
        (hco_lt _ hc₁) (hco_lt _ hc₂) heq
      have hb₁ := hco_lt _ hc₁
      have hb₂ := hco_lt _ hc₂
      have ho := rotOffset_lt (ro r)
      exact hco_inj _ hc₁ _ hc₂ (by omega)
    · intro v hv
      rw [List.mem_map] at hv
      obtain ⟨c, hc, hvc⟩ := hv
      rw [List.mem_range] at hc
      rw [← hvc]
      exact generate_cell_range hbase_lt hdp_range (hco_lt _ hc)
  · intro c hc d h1 h9
    rw [get_column_generate base_row co ro dp hc]
    refine count_eq_one_of_nine (by simp) ?_ ?_ d h1 h9
    · rw [List.nodup_map_iff_inj_on (List.nodup_range 9)]
      intro r₁ hr₁ r₂ hr₂ heq
      rw [List.mem_range] at hr₁ hr₂
      have hidx := generate_cell_index_eq hbase_lt hbase_inj hdp_inj
        (hco_lt _ hc) (hco_lt _ hc) heq
      have hb := hco_lt _ hc
      have ho₁ := rotOffset_lt (ro r₁)
      have ho₂ := rotOffset_lt (ro r₂)
      have hoeq : rotOffset (ro r₁) = rotOffset (ro r₂) := by omega
      exact hro_inj _ hr₁ _ hr₂
        (rotOffset_inj _ (hro_lt _ hr₁) _ (hro_lt _ hr₂) hoeq)
    · intro v hv
      rw [List.mem_map] at hv
      obtain ⟨r, hr, hvr⟩ := hv
      rw [List.mem_range] at hr
      rw [← hvr]
      exact generate_cell_range hbase_lt hdp_range (hco_lt _ hc)
  · intro tr htr tc htc d h1 h9
    rw [get_tile_generate base_row co ro dp htr htc]
    refine count_eq_one_of_nine (by simp) ?_ ?_ d h1 h9
    · rw [List.nodup_map_iff_inj_on (List.nodup_range 9)]
      intro j₁ hj₁ j₂ hj₂ heq
      rw [List.mem_range] at hj₁ hj₂
      have hc₁9 : tc * 3 + j₁ % 3 < 9 := by omega
      have hc₂9 : tc * 3 + j₂ % 3 < 9 := by omega
      have hr₁9 : tr * 3 + j₁ / 3 < 9 := by omega
      have hr₂9 : tr * 3 + j₂ / 3 < 9 := by omega
      have hidx := generate_cell_index_eq hbase_lt hbase_inj hdp_inj
        (hco_lt _ hc₁9) (hco_lt _ hc₂9) heq
      have ha₁ : co (tc * 3 + j₁ % 3) / 3 = tc := by
        have := hco_stack _ hc₁9; omega
      have ha₂ : co (tc * 3 + j₂ % 3) / 3 = tc := by
        have := hco_stack _ hc₂9; omega
      have ho₁ : rotOffset (ro (tr * 3 + j₁ / 3)) % 3 = tr := by
        have hm := rotOffset_mod3 (ro (tr * 3 + j₁ / 3)) (hro_lt _ hr₁9)
        have hb := hro_band _ hr₁9
        omega
      have ho₂ : rotOffset (ro (tr * 3 + j₂ / 3)) % 3 = tr := by
        have hm := rotOffset_mod3 (ro (tr * 3 + j₂ / 3)) (hro_lt _ hr₂9)
        have hb := hro_band _ hr₂9
        omega
      have hb₁ := hco_lt _ hc₁9
      have hb₂ := hco_lt _ hc₂9
      have ho₁lt := rotOffset_lt (ro (tr * 3 + j₁ / 3))
      have ho₂lt := rotOffset_lt (ro (tr * 3 + j₂ / 3))
      have hkey : co (tc * 3 + j₁ % 3) = co (tc * 3 + j₂ % 3)
          ∧ rotOffset (ro (tr * 3 + j₁ / 3)) = rotOffset (ro (tr * 3 + j₂ / 3)) := by
        omega
      have hceq := hco_inj _ hc₁9 _ hc₂9 hkey.1
      have hreq := rotOffset_inj _ (hro_lt _ hr₁9) _ (hro_lt _ hr₂9) hkey.2
      have hr12 := hro_inj _ hr₁9 _ hr₂9 hreq
      omega
    · intro v hv
      rw [List.mem_map] at hv
      obtain ⟨j, hj, hvj⟩ := hv
      rw [List.mem_range] at hj
      rw [← hvj]
      exact generate_cell_range hbase_lt hdp_range (hco_lt _ (by omega))

/-- Witness for C4: the identity shuffles (base row `0..8`, identity column
and row orders, relabeling `v ↦ v + 1`) yield a board whose first row
contains the digit 5 exactly once and whose tile `(2,2)` contains the digit 9
exactly once. -/
theorem C4_witness :
    (get_row (generate_board id id id (fun v => v + 1)) 0).count 5 = 1 ∧
    (get_tile (generate_board id id id (fun v => v + 1)) (2, 2)).count 9 = 1 := by
  have h := C4_generator_valid id id id (fun v => v + 1)
    (by decide) (by decide) (by decide) (by decide) (by decide) (by decide)
    (by decide) (by decide)
  exact ⟨h.2.1 0 (by omega) 5 (by omega) (by omega),
         h.2.2.2 2 (by omega) 2 (by omega) 9 (by omega) (by omega)⟩

/-! ## Solver/backtracker engine (`solve_board` and `backtrack` of
`src/board.rs`)

The `while` loop of `solve_board` carries explicit fuel (`SolveOut.fuelOut`
marks exhaustion); `backtrack`'s recursion is structural on the move history.
An `Oracle` supplies the program's nondeterminism: the iteration order of the
entropy `HashSet`s (`entOrder` for the candidate loop of `solve_board`,
`btOrder` for `last_cell_entropy` in `backtrack`) and the thread-rng
`IteratorRandom::choose` (`pick`).  `SolveOut.crash` models a Rust panic
(`assert!` failure or `.unwrap()` on `None`); `SolveOut.err` mirrors the
`Err` variant of the source's `Result<(), &str>`, which no code path
constructs.  The `draw_board` call before backtracking only prints and is
omitted. -/

/-- `BoardMove`: one entropy-collapse decision. -/
structure BoardMove where
  position : ℕ × ℕ
  new_value : ℕ
  cascades : List (ℕ × ℕ)
deriving DecidableEq

/-- The nondeterminism of the Rust program, passed in explicitly. -/
structure Oracle where
  entOrder : List ℕ → List ℕ
  btOrder : List ℕ → List ℕ
  pick : List (ℕ × ((ℕ × ℕ) × List ℕ)) → Option (ℕ × ((ℕ × ℕ) × List ℕ))

/-- The candidate-testing loop of `solve_board`'s ambiguous branch: write each
candidate into the cell in turn and run the selector; `.inr` is the early
`return Ok(())` when a candidate completes the board, otherwise `.inl` carries
the grid after the last write (the cell keeps the last tested value!) and the
surviving `(value, selector result)` pairs in iteration order. -/
def testCandidates (cell_index : ℕ) :
    Grid → List ℕ → (Grid × List (ℕ × ((ℕ × ℕ) × List ℕ))) ⊕ Grid
  | g, [] => .inl (g, [])
  | g, v :: rest =>
    let g' := g.set cell_index v
    match find_least_entropy g' with
    | none => .inr g'
    | some p =>
      match testCandidates cell_index g' rest with
      | .inr gEarly => .inr gEarly
      | .inl (gf, opts) =>
        if p.2.isEmpty then .inl (gf, opts) else .inl (gf, (v, p) :: opts)

/-- The `reduce` over `valid_options` followed by `.unwrap()`: keep the
earliest pair whose next selector candidate count is strictly minimal;
`none` when the list is empty (the `unwrap` then panics). -/
def reduceChoice :
    List (ℕ × ((ℕ × ℕ) × List ℕ)) → Option (ℕ × ((ℕ × ℕ) × List ℕ))
  | [] => none
  | x :: xs =>
    some (xs.foldl (fun acc y => if y.2.2.length < acc.2.2.length then y else acc) x)

/-- Outcome of `Board::backtrack`: `crash` for the `assert!`/`unwrap` panics,
otherwise the mutated grid, the new move history, and the returned
`Option<((row, col), entropy)>`. -/
inductive BtOut where
  | crash
  | step (g : Grid) (moves : List BoardMove) (res : Option ((ℕ × ℕ) × List ℕ))
deriving DecidableEq

/-- `Board::backtrack`.  Pops the last move (the `assert!` panics on an empty
history), clears its cascades and position, recomputes the entropy there
excluding the move's value, tentatively writes every remaining candidate
(the lazy `map` is fully consumed by `choose`, so the cell ends up holding
the **last** candidate in iteration order), keeps candidates whose selector
result is `Some` with non-empty entropy, and lets the rng choose a
substitute.  With no survivor it recurses — and discards the recursion's
return value, returning `None`. -/
def backtrack (oa : Oracle) : Grid → List BoardMove → BtOut
  | _, [] => .crash
  | g, m :: rest =>
    let g1 := m.cascades.foldl (fun acc p => acc.set (p.1 * 9 + p.2) 0) g
    let idx := m.position.1 * 9 + m.position.2
    let g2 := g1.set idx 0
    match calculate_entropy_at_cell g2 m.position.1 m.position.2 with
    | none => .crash
    | some e =>
      let ord := oa.btOrder (e.erase m.new_value)
      let items := ord.map (fun v => (v, find_least_entropy (g2.set idx v)))
      let gAfter := match ord.getLast? with
        | some v => g2.set idx v
        | none => g2
      let surviving := (items.filter (fun x => match x.2 with
        | none => false
        | some nd => !nd.2.isEmpty)).filterMap (fun x => match x.2 with
        | none => none
        | some nd => some (x.1, nd))
      match oa.pick surviving with
      | some (substitute_val, next_data) =>
        .step gAfter
          ({ position := m.position, new_value := substitute_val, cascades := [] } :: rest)
          (some next_data)
      | none =>
        match backtrack oa gAfter rest with
        | .crash => .crash
        | .step g' moves' _ => .step g' moves' none

/-- Outcome of `Board::solve_board`: `ok`/`err` mirror the source's
`Result<(), &str>` (with the final grid attached, since the source mutates in
place), `crash` is a panic, and `fuelOut` marks fuel exhaustion of the
embedding (a run still in the `while` loop). -/
inductive SolveOut where
  | ok (g : Grid)
  | err (g : Grid) (msg : String)
  | crash
  | fuelOut (g : Grid) (moves : List BoardMove)
deriving DecidableEq

/-- One iteration of the `while` loop of `solve_board`: either the loop
terminates with a `SolveOut` (`.halt`) or continues with the new grid, move
history and selector result (`.again`). -/
inductive StepOut where
  | halt (out : SolveOut)
  | again (g : Grid) (moves : List BoardMove) (ler : Option ((ℕ × ℕ) × List ℕ))

/-- The body of `solve_board`'s loop (including the loop condition
`least_entropy_result.is_some()`: a `none` selector result leaves the loop
with `Ok`). -/
def solveStep (oa : Oracle) (g : Grid) (moves : List BoardMove)
    (ler : Option ((ℕ × ℕ) × List ℕ)) : StepOut :=
  match ler with
  | none => .halt (.ok g)
  | some ((row, col), min_entropy) =>
    if min_entropy.isEmpty then
      match backtrack oa g moves with
      | .crash => .halt .crash
      | .step g' moves' ler' => .again g' moves' ler'
    else
      let cell_index := row * 9 + col
      if min_entropy.length = 1 then
        let g' := g.set cell_index (min_entropy.headD 0)
        let moves' := match moves with
          | [] => []
          | last :: rest =>
            { last with cascades := last.cascades ++ [(row, col)] } :: rest
        .again g' moves' (find_least_entropy g')
      else
        match testCandidates cell_index g (oa.entOrder min_entropy) with
        | .inr gEarly => .halt (.ok gEarly)
        | .inl (gf, opts) =>
          match reduceChoice opts with
          | none => .halt .crash
          | some (choiceVal, _) =>
            .again gf
              ({ position := (row, col), new_value := choiceVal, cascades := [] } :: moves)
              (find_least_entropy gf)

/-- The `while least_entropy_result.is_some()` loop of `solve_board`. -/
def solveLoop (oa : Oracle) :
    ℕ → Grid → List BoardMove → Option ((ℕ × ℕ) × List ℕ) → SolveOut
  | 0, g, moves, _ => .fuelOut g moves
  | fuel + 1, g, moves, ler =>
    match solveStep oa g moves ler with
    | .halt out => out
    | .again g' moves' ler' => solveLoop oa fuel g' moves' ler'

/-- `Board::solve_board`: run the loop from an empty move history, starting
from the initial selector result. -/
def solve_board (oa : Oracle) (fuel : ℕ) (g : Grid) : SolveOut :=
  solveLoop oa fuel g [] (find_least_entropy g)

/-- A concrete oracle: ascending hash-set iteration order, `choose` takes the
first element. -/
def concreteOracle : Oracle := ⟨id, id, List.head?⟩

/-- A halting loop iteration yields `Ok` or a panic, never `err`. -/
theorem solveStep_halt_ne_err (oa : Oracle) (g : Grid) (moves : List BoardMove)
    (ler : Option ((ℕ × ℕ) × List ℕ)) (out : SolveOut)
    (h : solveStep oa g moves ler = .halt out) :
    ∀ (g' : Grid) (msg : String), out ≠ .err g' msg := by
  intro g' msg
  unfold solveStep at h
  split at h
  · rw [StepOut.halt.injEq] at h
    rw [← h]
    simp
  · split at h
    · split at h
      · rw [StepOut.halt.injEq] at h
        rw [← h]
        simp
      · exact absurd h (by simp)
    · dsimp only at h
      split at h
      · exact absurd h (by simp)
      · split at h
        · rw [StepOut.halt.injEq] at h
          rw [← h]
          simp
        · split at h
          · rw [StepOut.halt.injEq] at h
            rw [← h]
            simp
          · exact absurd h (by simp)

/-- No branch of the loop ever produces the `err` outcome. -/
theorem solveLoop_ne_err (oa : Oracle) :
    ∀ (fuel : ℕ) (g : Grid) (moves : List BoardMove) (ler : Option ((ℕ × ℕ) × List ℕ))
      (g' : Grid) (msg : String), solveLoop oa fuel g moves ler ≠ .err g' msg := by
  intro fuel
  induction fuel with
  | zero => intro g moves ler g' msg h; exact absurd h (by simp [solveLoop])
  | succ fuel ih =>
    intro g moves ler g' msg h
    unfold solveLoop at h
    split at h
    · next out hstep => exact solveStep_halt_ne_err oa g moves ler out hstep g' msg h
    · next g2 moves2 ler2 hstep => exact ih _ _ _ _ _ h

/-- Claim C10: `solve_board` never returns the `Err` variant of its
`Result`: no code path constructs it, so for every oracle, fuel and input
grid the result is `Ok`, a panic, or a still-running loop — the caller's
error branch is unreachable. -/
theorem C10_err_unreachable (oa : Oracle) (fuel : ℕ) (g : Grid) :
    ∀ (g' : Grid) (msg : String), solve_board oa fuel g ≠ .err g' msg :=
  fun g' msg => solveLoop_ne_err oa fuel g [] (find_least_entropy g) g' msg

/-- `find_least_entropy` returns `none` exactly on grids with no empty cell
(helper shared by several theorems; the full selector specification is proved
separately). -/
theorem find_none_iff (g : Grid) :
    find_least_entropy g = none ↔ ∀ r, r < 9 → ∀ c, c < 9 → cellAt g r c ≠ 0 := by
  constructor
  · intro hnone r hr c hc hcell
    have hrdef : find_least_entropy g =
        (if (scanLE g scanPositions ((10, 10), List.range 10)).1 = (10, 10) then none
         else some (scanLE g scanPositions ((10, 10), List.range 10))) := rfl
    rw [hrdef] at hnone
    split at hnone
    · next hsent =>
      obtain ⟨e, he⟩ : ∃ e, calculate_entropy_at_cell g r c = some e := by
        rcases h : calculate_entropy_at_cell g r c with _ | e
        · exact absurd (entropy_none_iff.mp h) (by simp [hcell])
        · exact ⟨e, rfl⟩
      have hmin := scanLE_min g scanPositions ((10, 10), List.range 10) (r, c)
        (mem_scanPositions.mpr ⟨hr, hc⟩) e he
      have hle9 : e.length ≤ 9 := entropy_length_le_nine hr hc he
      rcases scanLE_provenance g scanPositions ((10, 10), List.range 10) with hinit | hupd
      · rw [hinit] at hmin
        simp only [List.length_range] at hmin
        omega
      · obtain ⟨p', hp', e', -, hr'⟩ := hupd
        rw [hr'] at hsent
        exact sentinel_not_mem (hsent ▸ hp')
    · exact absurd hnone (by simp)
  · intro hfull
    have hscan : scanLE g scanPositions ((10, 10), List.range 10) = ((10, 10), List.range 10) :=
      scanLE_of_no_empty
        (fun p hp => hfull p.1 (mem_scanPositions.mp hp).1 p.2 (mem_scanPositions.mp hp).2) _
    show (if _ = ((10 : ℕ), (10 : ℕ)) then _ else _) = _
    rw [hscan]
    simp

/-- Claim C9: running the solver on a grid with no empty cell reports success
immediately and returns the grid unchanged. -/
theorem C9_solved_grid_idempotent (oa : Oracle) (fuel : ℕ) (g : Grid)
    (hfull : ∀ r, r < 9 → ∀ c, c < 9 → cellAt g r c ≠ 0) (hfuel : 0 < fuel) :
    solve_board oa fuel g = .ok g := by
  have hnone : find_least_entropy g = none := (find_none_iff g).mpr hfull
  obtain ⟨fuel', rfl⟩ : ∃ fuel', fuel = fuel' + 1 :=
    ⟨fuel - 1, by omega⟩
  unfold solve_board
  rw [hnone]
  rfl

/-- Witness for C9: the solved classic grid is returned unchanged. -/
theorem C9_witness : solve_board concreteOracle 1 classicSolvedGrid = .ok classicSolvedGrid :=
  C9_solved_grid_idempotent concreteOracle 1 classicSolvedGrid (by decide) (by decide)

/-- A board whose cell `(0,0)` is empty with an empty candidate set (its row
holds `2..9` and its column holds `1`), reaching backtracking with an empty
move history on the very first loop iteration. -/
def contradictionBoard : Grid :=
  [0,2,3,4,5,6,7,8,9,
   1,0,0,0,0,0,0,0,0,
   0,0,0,0,0,0,0,0,0,
   0,0,0,0,0,0,0,0,0,
   0,0,0,0,0,0,0,0,0,
   0,0,0,0,0,0,0,0,0,
   0,0,0,0,0,0,0,0,0,
   0,0,0,0,0,0,0,0,0,
   0,0,0,0,0,0,0,0,0]

/-- Counterexample to claim C2: on `contradictionBoard` the solver enters
backtracking with an empty move history and the run ends in a panic
(`assert!(!previous_moves.is_empty())`), not in an explicit `Err` result —
`main`'s "unable to complete" branch is dead code. -/
theorem C2_counterexample :
    solve_board concreteOracle 2 contradictionBoard = .crash ∧
    (∀ (g' : Grid) (msg : String), solve_board concreteOracle 2 contradictionBoard
      ≠ .err g' msg) := by
  refine ⟨by decide, ?_⟩
  intro g' msg h
  rw [(by decide : solve_board concreteOracle 2 contradictionBoard = .crash)] at h
  exact absurd h (by simp)

/-- Claim C2 as amended: entering backtracking with an empty move history
aborts with an assertion panic (for every oracle, grid and pending selector
result), rather than surfacing an explicit error result. -/
theorem C2_amended_backtrack_panics (oa : Oracle) (g : Grid) (fuel r c : ℕ) :
    backtrack oa g [] = .crash ∧
    solveLoop oa (fuel + 1) g [] (some ((r, c), [])) = .crash :=
  ⟨rfl, rfl⟩

/-- The classic solved grid with the four cells `(1,7)`, `(1,8)`, `(6,7)`,
`(6,8)` cleared; each cleared cell has exactly the two candidates `{4, 8}`. -/
def fourCellBoard : Grid :=
  [5,3,4,6,7,8,9,1,2,
   6,7,2,1,9,5,3,0,0,
   1,9,8,3,4,2,5,6,7,
   8,5,9,7,6,1,4,2,3,
   4,2,6,8,5,3,7,9,1,
   7,1,3,9,2,4,8,5,6,
   9,6,1,5,3,7,2,0,0,
   2,8,7,4,1,9,6,3,5,
   3,4,5,2,8,6,1,7,9]

/-- Final grid of a solver outcome (the source mutates the board in place). -/
def SolveOut.gridOf : SolveOut → Grid
  | .ok g => g
  | .err g _ => g
  | .crash => []
  | .fuelOut g _ => g

/-- Move history of a still-running solver outcome. -/
def SolveOut.movesOf : SolveOut → List BoardMove
  | .fuelOut _ moves => moves
  | _ => []

/-- Claim C3 evaluated at the failing input: after the first loop iteration on
`fourCellBoard`, the pushed move records `new_value = 4` for cell `(1,7)`
(the lookahead's choice) while the grid holds `8` there (the last tested
candidate) — the chosen value is never written back. -/
theorem C3_move_value_mismatch :
    (solve_board concreteOracle 1 fourCellBoard).movesOf
      = [{ position := (1, 7), new_value := 4, cascades := [] }] ∧
    (solve_board concreteOracle 1 fourCellBoard).gridOf.getD (1 * 9 + 7) 0 = 8 ∧
    (4 : ℕ) ≠ 8 :=
  ⟨by decide, by decide, by decide⟩

/-! ## Reachability invariant for the solver loop

The remaining development proves that under a *faithful* oracle — hash-set
iteration orders that permute the set contents and a `choose` that returns an
element exactly when its input is nonempty — `solve_board` can answer `Ok`
only with a completely filled grid.  The crux: every move the engine can pop
was decided at a state whose minimum candidate count was at least 2, so the
pop always finds a surviving substitute and `backtrack`'s result-discarding
recursion (which would return `Ok` on an unsolved grid) is unreachable. -/

/-- Faithfulness of an oracle: iteration orders are permutations of the hash
set contents, and `choose` returns an element iff the list is nonempty. -/
structure Oracle.Faithful (oa : Oracle) : Prop where
  entOrder_perm : ∀ e, (oa.entOrder e).Perm e
  btOrder_perm : ∀ e, (oa.btOrder e).Perm e
  pick_mem : ∀ l x, oa.pick l = some x → x ∈ l
  pick_some : ∀ l, l ≠ [] → oa.pick l ≠ none

/-- The concrete oracle is faithful. -/
theorem concreteOracle_faithful : concreteOracle.Faithful where
  entOrder_perm := fun e => List.Perm.refl e
  btOrder_perm := fun e => List.Perm.refl e
  pick_mem := fun l x h => by
    cases l with
    | nil => simp [concreteOracle] at h
    | cons a t =>
      simp only [concreteOracle, List.head?, Option.some.injEq] at h
      rw [← h]
      exact List.mem_cons_self _ _
  pick_some := fun l h => by
    cases l with
    | nil => exact absurd rfl h
    | cons a t => simp [concreteOracle]

/-- Reading any cell after writing `0` somewhere (unconditionally: an
out-of-range write is a no-op but the out-of-range read is `0` anyway). -/
theorem getD_set_zero (g : Grid) (i j : ℕ) :
    (g.set i 0).getD j 0 = if j = i then 0 else g.getD j 0 := by
  by_cases hij : j = i
  · subst hij
    by_cases hlen : j < g.length
    · rw [List.getD_eq_getElem?_getD, List.getElem?_set_self hlen]
      simp
    · rw [List.set_eq_of_length_le (by omega), List.getD_eq_getElem?_getD,
        List.getElem?_eq_none_iff.mpr (by omega)]
      simp
  · rw [if_neg hij, List.getD_eq_getElem?_getD,
      List.getElem?_set_ne (fun h => hij h.symm), ← List.getD_eq_getElem?_getD]

/-- Reading any cell after an in-range write. -/
theorem getD_set_lt (g : Grid) {i : ℕ} (v : ℕ) (hi : i < g.length) (j : ℕ) :
    (g.set i v).getD j 0 = if j = i then v else g.getD j 0 := by
  by_cases hij : j = i
  · subst hij
    rw [if_pos rfl, List.getD_eq_getElem?_getD, List.getElem?_set_self hi]
    simp
  · rw [if_neg hij, List.getD_eq_getElem?_getD,
      List.getElem?_set_ne (fun h => hij h.symm), ← List.getD_eq_getElem?_getD]

/-- Pointwise equality of grids: all that the board operations observe. -/
def GEq (g g' : Grid) : Prop := ∀ j, g.getD j 0 = g'.getD j 0

/-- Pointwise-equal grids have equal views. -/
theorem get_row_congr {g g' : Grid} (h : GEq g g') (row : ℕ) :
    get_row g row = get_row g' row := by
  unfold get_row
  exact List.map_congr_left (fun i _ => h i)

/-- Pointwise-equal grids have equal views. -/
theorem get_column_congr {g g' : Grid} (h : GEq g g') (col : ℕ) :
    get_column g col = get_column g' col := by
  unfold get_column
  exact List.map_congr_left (fun i _ => h i)

/-- Pointwise-equal grids have equal views. -/
theorem get_tile_congr {g g' : Grid} (h : GEq g g') (t : ℕ × ℕ) :
    get_tile g t = get_tile g' t := by
  unfold get_tile
  exact List.map_congr_left (fun i _ => h i)

/-- Pointwise-equal grids have equal candidate sets. -/
theorem entropy_congr {g g' : Grid} (h : GEq g g') (row col : ℕ) :
    calculate_entropy_at_cell g row col = calculate_entropy_at_cell g' row col := by
  unfold calculate_entropy_at_cell
  rw [h (row * 9 + col), get_row_congr h, get_column_congr h, get_tile_congr h]

/-- Pointwise-equal grids have equal selector results. -/
theorem find_congr {g g' : Grid} (h : GEq g g') :
    find_least_entropy g = find_least_entropy g' := by
  have hscan : ∀ l acc, scanLE g l acc = scanLE g' l acc := by
    intro l
    induction l with
    | nil => intro acc; rfl
    | cons p rest ih =>
      intro acc
      rcases hce : calculate_entropy_at_cell g' p.1 p.2 with _ | e
      · have hg : calculate_entropy_at_cell g p.1 p.2 = none := by
          rw [entropy_congr h]; exact hce
        simp only [scanLE, hg, hce]
        exact ih acc
      · have hg : calculate_entropy_at_cell g p.1 p.2 = some e := by
          rw [entropy_congr h]; exact hce
        simp only [scanLE, hg, hce]
        exact ih _
  unfold find_least_entropy
  rw [hscan scanPositions ((10, 10), List.range 10)]

/-- Candidate lists are duplicate-free. -/
theorem entropy_nodup {g : Grid} {r c : ℕ} {e : List ℕ}
    (h : calculate_entropy_at_cell g r c = some e) : e.Nodup :=
  (List.nodup_range 10).sublist (entropy_sublist h)

/-- If every element of `e` other than `v` lies in `e'`, then `e` has at most
one more element (both lists duplicate-free). -/
theorem length_le_of_almost_subset {e e' : List ℕ} {v : ℕ} (hnd : e.Nodup)
    (hnd' : e'.Nodup) (h : ∀ d ∈ e, d ≠ v → d ∈ e') : e.length ≤ e'.length + 1 := by
  have hsub : e.toFinset ⊆ insert v e'.toFinset := by
    intro d hd
    rw [List.mem_toFinset] at hd
    by_cases hdv : d = v
    · subst hdv; exact Finset.mem_insert_self _ _
    · exact Finset.mem_insert_of_mem (List.mem_toFinset.mpr (h d hd hdv))
  have hcard := Finset.card_le_card hsub
  have hins := Finset.card_insert_le v e'.toFinset
  rw [List.toFinset_card_of_nodup hnd] at hcard
  rw [List.toFinset_card_of_nodup hnd'] at hins
  omega

/-- Writing a value into one empty cell removes at most that value from any
other empty cell's candidate set. -/
theorem entropy_set_superset {g : Grid} {i v : ℕ} (hi : i < g.length)
    {r c : ℕ} (hne : r * 9 + c ≠ i)
    {e : List ℕ} (he : calculate_entropy_at_cell g r c = some e) :
    ∃ e', calculate_entropy_at_cell (g.set i v) r c = some e'
      ∧ (∀ d ∈ e, d ≠ v → d ∈ e') ∧ e.length ≤ e'.length + 1 := by
  have hcell : cellAt g r c = 0 := by
    by_contra hcc
    rw [entropy_none_iff.mpr hcc] at he
    exact absurd he (by simp)
  have hcell' : (g.set i v).getD (r * 9 + c) 0 = 0 := by
    rw [getD_set_lt g v hi, if_neg hne]
    exact hcell
  obtain ⟨e', he'⟩ : ∃ e', calculate_entropy_at_cell (g.set i v) r c = some e' := by
    rcases h : calculate_entropy_at_cell (g.set i v) r c with _ | e'
    · exact absurd hcell' (entropy_none_iff.mp h)
    · exact ⟨e', rfl⟩
  have hmem : ∀ d ∈ e, d ≠ v → d ∈ e' := by
    intro d hd hdv
    rw [mem_entropy_iff he] at hd
    rw [mem_entropy_iff he']
    obtain ⟨h10, hrow, hcol, htile⟩ := hd
    refine ⟨h10, ?_, ?_, ?_⟩
    · intro hcontra
      obtain ⟨idx, hidx, hidxr, hval⟩ := mem_get_row.mp hcontra
      rw [getD_set_lt g v hi] at hval
      split at hval
      · exact hdv hval.symm
      · exact hrow (mem_get_row.mpr ⟨idx, hidx, hidxr, hval⟩)
    · intro hcontra
      obtain ⟨idx, hidx, hidxc, hval⟩ := mem_get_column.mp hcontra
      rw [getD_set_lt g v hi] at hval
      split at hval
      · exact hdv hval.symm
      · exact hcol (mem_get_column.mpr ⟨idx, hidx, hidxc, hval⟩)
    · intro hcontra
      obtain ⟨idx, hidx, h1, h2, hval⟩ := mem_get_tile.mp hcontra
      rw [getD_set_lt g v hi] at hval
      split at hval
      · exact hdv hval.symm
      · exact htile (mem_get_tile.mpr ⟨idx, hidx, h1, h2, hval⟩)
  exact ⟨e', he', hmem,
    length_le_of_almost_subset (entropy_nodup he) (entropy_nodup he') hmem⟩

/-- After an in-range non-zero write, a cell is empty iff it was empty and is
not the written cell. -/
theorem cell_set_zero_iff {g : Grid} {i v : ℕ} (hi : i < g.length) (hv : v ≠ 0)
    (j : ℕ) : (g.set i v).getD j 0 = 0 ↔ (g.getD j 0 = 0 ∧ j ≠ i) := by
  rw [getD_set_lt g v hi]
  split
  · next h => subst h; simp [hv]
  · next h => simp [h]

/-- What a `Some` result of the selector means: an empty in-bounds cell,
its exact candidate list, and minimality over all empty cells. -/
theorem find_some_spec {g : Grid} {p : ℕ × ℕ} {e : List ℕ}
    (h : find_least_entropy g = some (p, e)) :
    p.1 < 9 ∧ p.2 < 9 ∧ cellAt g p.1 p.2 = 0 ∧
    calculate_entropy_at_cell g p.1 p.2 = some e ∧
    (∀ q1 q2, q1 < 9 → q2 < 9 → ∀ e2, calculate_entropy_at_cell g q1 q2 = some e2 →
      e.length ≤ e2.length) := by
  have hrdef : find_least_entropy g =
      (if (scanLE g scanPositions ((10, 10), List.range 10)).1 = (10, 10) then none
       else some (scanLE g scanPositions ((10, 10), List.range 10))) := rfl
  rw [hrdef] at h
  split at h
  · exact absurd h (by simp)
  · next hsent =>
    rw [Option.some.injEq] at h
    rcases scanLE_provenance g scanPositions ((10, 10), List.range 10) with hinit | hupd
    · exact absurd (congrArg Prod.fst hinit) hsent
    · obtain ⟨p', hp', e', he', hr'⟩ := hupd
      rw [hr'] at h
      have hpeq : p' = p := congrArg Prod.fst h
      have heeq : e' = e := congrArg Prod.snd h
      rw [hpeq] at hp'
      rw [hpeq, heeq] at he'
      rw [hpeq, heeq] at hr'
      have hbounds := mem_scanPositions.mp hp'
      have hcell : cellAt g p.1 p.2 = 0 := by
        by_contra hne
        rw [entropy_none_iff.mpr hne] at he'
        exact absurd he' (by simp)
      refine ⟨hbounds.1, hbounds.2, hcell, he', ?_⟩
      intro q1 q2 hq1 hq2 e2 he2
      have := scanLE_min g scanPositions ((10, 10), List.range 10) (q1, q2)
        (mem_scanPositions.mpr ⟨hq1, hq2⟩) e2 he2
      rw [hr'] at this
      exact this

/-- A grid with an empty in-bounds cell yields a `Some` selector result. -/
theorem find_some_of_empty {g : Grid} {r c : ℕ} (hr : r < 9) (hc : c < 9)
    (hcell : cellAt g r c = 0) : ∃ pe, find_least_entropy g = some pe := by
  rcases hf : find_least_entropy g with _ | pe
  · exact absurd hcell ((find_none_iff g).mp hf r hr c hc)
  · exact ⟨pe, rfl⟩

/-- Writing at one index never changes another index. -/
theorem getD_set_ne (g : Grid) (i v : ℕ) {j : ℕ} (hj : j ≠ i) :
    (g.set i v).getD j 0 = g.getD j 0 := by
  rw [List.getD_eq_getElem?_getD, List.getElem?_set_ne (fun h => hj h.symm),
    ← List.getD_eq_getElem?_getD]

/-- Overwriting a cleared-and-rewritten cell with `0` restores the grid
pointwise, provided the cell was `0` to begin with. -/
theorem set_set_zero_geq (g : Grid) (idx v : ℕ) (h : g.getD idx 0 = 0) :
    GEq ((g.set idx v).set idx 0) g := by
  intro j
  rw [getD_set_zero]
  split
  · next hj => subst hj; exact h.symm
  · next hj => exact getD_set_ne _ _ _ hj

/-- The grid `backtrack` computes when popping move `m`: all cascade cells,
then the move's own position, cleared to `0`. -/
def clearMove (g : Grid) (m : BoardMove) : Grid :=
  (m.cascades.foldl (fun acc p => acc.set (p.1 * 9 + p.2) 0) g).set
    (m.position.1 * 9 + m.position.2) 0

/-- Pointwise description of the cascade-clearing fold. -/
theorem getD_foldl_clear (casc : List (ℕ × ℕ)) (g : Grid) (j : ℕ) :
    (casc.foldl (fun acc p => acc.set (p.1 * 9 + p.2) 0) g).getD j 0
      = if casc.any (fun p => p.1 * 9 + p.2 == j) then 0 else g.getD j 0 := by
  induction casc generalizing g with
  | nil => simp
  | cons p rest ih =>
    show (rest.foldl _ (g.set (p.1 * 9 + p.2) 0)).getD j 0 = _
    rw [ih (g.set (p.1 * 9 + p.2) 0), getD_set_zero, List.any_cons]
    simp only [Bool.or_eq_true, beq_iff_eq]
    by_cases h1 : (rest.any fun q => q.1 * 9 + q.2 == j) = true
    · rw [if_pos h1, if_pos (Or.inr h1)]
    · rw [if_neg h1]
      by_cases h2 : j = p.1 * 9 + p.2
      · rw [if_pos h2, if_pos (Or.inl h2.symm)]
      · rw [if_neg h2, if_neg (fun h => h.elim (fun h' => h2 h'.symm) h1)]

/-- Pointwise description of `clearMove`. -/
theorem getD_clearMove (g : Grid) (m : BoardMove) (j : ℕ) :
    (clearMove g m).getD j 0
      = if j = m.position.1 * 9 + m.position.2 then 0
        else if m.cascades.any (fun p => p.1 * 9 + p.2 == j) then 0 else g.getD j 0 := by
  unfold clearMove
  rw [getD_set_zero, getD_foldl_clear]

/-- Clearing preserves the grid's length. -/
theorem length_clearMove (g : Grid) (m : BoardMove) :
    (clearMove g m).length = g.length := by
  unfold clearMove
  rw [List.length_set]
  induction m.cascades generalizing g with
  | nil => rfl
  | cons p rest ih =>
    show (rest.foldl _ (g.set (p.1 * 9 + p.2) 0)).length = _
    rw [ih (g.set (p.1 * 9 + p.2) 0), List.length_set]

/-- Recording a cascade fill leaves the cleared decision state untouched. -/
theorem clearMove_cascade_append {g : Grid} {m : BoardMove} {r c v : ℕ}
    (hcell : g.getD (r * 9 + c) 0 = 0) :
    GEq (clearMove (g.set (r * 9 + c) v)
          { m with cascades := m.cascades ++ [(r, c)] }) (clearMove g m) := by
  intro j
  rw [getD_clearMove, getD_clearMove]
  simp only [List.any_append, List.any_cons, List.any_nil, Bool.or_false,
    Bool.or_eq_true, beq_iff_eq]
  by_cases hpos : j = m.position.1 * 9 + m.position.2
  · simp [hpos]
  · rw [if_neg hpos, if_neg hpos]
    by_cases hcasc : (m.cascades.any fun p => p.1 * 9 + p.2 == j) = true
    · rw [if_pos (Or.inl hcasc), if_pos hcasc]
    · by_cases hrc : r * 9 + c = j
      · rw [if_pos (Or.inr hrc), if_neg hcasc]
        rw [← hrc]
        exact hcell.symm
      · rw [if_neg (fun h => h.elim (fun h' => hcasc h') hrc), if_neg hcasc,
          getD_set_ne _ _ _ (fun h => hrc h.symm)]

/-- Pushing a fresh move at an empty cell leaves the decision state equal to
the grid before the write. -/
theorem clearMove_push_geq {g : Grid} {pos : ℕ × ℕ} {val γ : ℕ}
    (h : g.getD (pos.1 * 9 + pos.2) 0 = 0) :
    GEq (clearMove (g.set (pos.1 * 9 + pos.2) γ)
          { position := pos, new_value := val, cascades := [] }) g := by
  intro j
  show ((g.set (pos.1 * 9 + pos.2) γ).set (pos.1 * 9 + pos.2) 0).getD j 0 = _
  exact set_set_zero_geq g _ γ h j

/-- Which grid the candidate-testing loop ends on. -/
theorem testCandidates_inl_grid {cell_index : ℕ} :
    ∀ (ord : List ℕ) (g gf : Grid) (opts : List (ℕ × ((ℕ × ℕ) × List ℕ))),
      testCandidates cell_index g ord = .inl (gf, opts) →
      (ord = [] ∧ gf = g) ∨
        (∃ v, ord.getLast? = some v ∧ gf = g.set cell_index v) := by
  intro ord
  induction ord with
  | nil =>
    intro g gf opts h
    simp only [testCandidates, Sum.inl.injEq] at h
    exact Or.inl ⟨rfl, (congrArg Prod.fst h).symm⟩
  | cons v rest ih =>
    intro g gf opts h
    unfold testCandidates at h
    dsimp only at h
    split at h
    · exact absurd h (by simp)
    · split at h
      · exact absurd h (by simp)
      · next gf' opts' hrec =>
        have hgf : gf' = gf := by
          split at h
          · rw [Sum.inl.injEq] at h
            exact congrArg Prod.fst h
          · rw [Sum.inl.injEq] at h
            exact congrArg Prod.fst h
        rw [hgf] at hrec
        rcases ih (g.set cell_index v) gf opts' hrec with ⟨hrest, hgf'⟩ | ⟨w, hw, hgf'⟩
        · subst hrest
          exact Or.inr ⟨v, rfl, hgf'⟩
        · refine Or.inr ⟨w, ?_, by rw [hgf', List.set_set]⟩
          cases rest with
          | nil => exact absurd hw (by simp)
          | cons a t =>
            rw [List.getLast?_cons_cons]
            exact hw

/-- Every surviving option of the candidate-testing loop came from a tested
candidate, with its selector result computed on the grid holding exactly that
candidate, and a non-empty next candidate list. -/
theorem testCandidates_inl_opts {cell_index : ℕ} :
    ∀ (ord : List ℕ) (g gf : Grid) (opts : List (ℕ × ((ℕ × ℕ) × List ℕ))),
      testCandidates cell_index g ord = .inl (gf, opts) →
      ∀ x ∈ opts, x.1 ∈ ord ∧ find_least_entropy (g.set cell_index x.1) = some x.2 ∧
        ¬ x.2.2.isEmpty = true := by
  intro ord
  induction ord with
  | nil =>
    intro g gf opts h x hx
    simp only [testCandidates, Sum.inl.injEq] at h
    have hopts : opts = [] := (congrArg Prod.snd h).symm
    rw [hopts] at hx
    simp at hx
  | cons v rest ih =>
    intro g gf opts h x hx
    unfold testCandidates at h
    dsimp only at h
    split at h
    · exact absurd h (by simp)
    · next p hp =>
      split at h
      · exact absurd h (by simp)
      · next gf' opts' hrec =>
        have hih := ih (g.set cell_index v) gf' opts' hrec
        split at h
        · rw [Sum.inl.injEq] at h
          have hopts : opts' = opts := congrArg Prod.snd h
          rw [hopts] at hih
          obtain ⟨hmem, hfind, hne⟩ := hih x hx
          rw [List.set_set v x.1 g cell_index] at hfind
          exact ⟨List.mem_cons_of_mem _ hmem, hfind, hne⟩
        · next hpne =>
          rw [Sum.inl.injEq] at h
          have hopts : (v, p) :: opts' = opts := congrArg Prod.snd h
          rw [← hopts] at hx
          rcases List.mem_cons.mp hx with rfl | hx'
          · exact ⟨List.mem_cons_self _ _, hp, hpne⟩
          · obtain ⟨hmem, hfind, hne⟩ := hih x hx'
            rw [List.set_set v x.1 g cell_index] at hfind
            exact ⟨List.mem_cons_of_mem _ hmem, hfind, hne⟩

/-- An early `Ok` of the candidate-testing loop means some tested candidate
completed the board. -/
theorem testCandidates_inr {cell_index : ℕ} :
    ∀ (ord : List ℕ) (g gE : Grid), testCandidates cell_index g ord = .inr gE →
      ∃ v ∈ ord, gE = g.set cell_index v ∧ find_least_entropy gE = none := by
  intro ord
  induction ord with
  | nil =>
    intro g gE h
    exact absurd h (by simp [testCandidates])
  | cons v rest ih =>
    intro g gE h
    unfold testCandidates at h
    dsimp only at h
    split at h
    · next hp =>
      rw [Sum.inr.injEq] at h
      subst h
      exact ⟨v, List.mem_cons_self _ _, rfl, hp⟩
    · split at h
      · next gEarly hrec =>
        rw [Sum.inr.injEq] at h
        subst h
        obtain ⟨w, hw, hgE, hfind⟩ := ih (g.set cell_index v) gEarly hrec
        exact ⟨w, List.mem_cons_of_mem _ hw, by rw [hgE, List.set_set], hfind⟩
      · split at h <;> exact absurd h (by simp)

/-- The folded minimum of `reduceChoice` is one of its inputs. -/
theorem reduceChoice_mem :
    ∀ (l : List (ℕ × ((ℕ × ℕ) × List ℕ))) (x), reduceChoice l = some x → x ∈ l := by
  have haux : ∀ (xs : List (ℕ × ((ℕ × ℕ) × List ℕ))) (a),
      xs.foldl (fun acc y => if y.2.2.length < acc.2.2.length then y else acc) a = a ∨
      xs.foldl (fun acc y => if y.2.2.length < acc.2.2.length then y else acc) a ∈ xs := by
    intro xs
    induction xs with
    | nil => intro a; exact Or.inl rfl
    | cons y ys ih =>
      intro a
      have hstep : (y :: ys).foldl (fun acc y => if y.2.2.length < acc.2.2.length then y else acc) a
          = ys.foldl (fun acc y => if y.2.2.length < acc.2.2.length then y else acc)
            (if y.2.2.length < a.2.2.length then y else a) := rfl
      rw [hstep]
      rcases ih (if y.2.2.length < a.2.2.length then y else a) with h | h
      · rw [h]
        split
        · exact Or.inr (List.mem_cons_self _ _)
        · exact Or.inl rfl
      · exact Or.inr (List.mem_cons_of_mem _ h)
  intro l x h
  cases l with
  | nil => exact absurd h (by simp [reduceChoice])
  | cons a xs =>
    simp only [reduceChoice, Option.some.injEq] at h
    rcases haux xs a with h' | h'
    · rw [← h, h']
      exact List.mem_cons_self _ _
    · rw [← h]
      exact List.mem_cons_of_mem _ h'

/-- A cell with a candidate list is empty. -/
theorem cell_empty_of_entropy_some {g : Grid} {r c : ℕ} {e : List ℕ}
    (h : calculate_entropy_at_cell g r c = some e) : cellAt g r c = 0 := by
  by_contra hne
  rw [entropy_none_iff.mpr hne] at h
  exact absurd h (by simp)

/-- Zero is never a candidate of an in-bounds cell. -/
theorem zero_not_mem_entropy {g : Grid} {r c : ℕ} (hr : r < 9) (hc : c < 9)
    {e : List ℕ} (h : calculate_entropy_at_cell g r c = some e) : (0 : ℕ) ∉ e := by
  intro h0
  rw [mem_entropy_iff h] at h0
  exact h0.2.1 (cell_empty_of_entropy_some h ▸ cellAt_mem_get_row hr hc)

/-- Decision-state properties of the top move of the history: its cleared
state has the move's cell empty with the move's value among its candidates,
at least one further empty cell, and every other empty cell with at least two
candidates.  These are exactly what guarantees that popping the move finds a
surviving substitute. -/
structure TopInv (g : Grid) (m : BoardMove) : Prop where
  pos1 : m.position.1 < 9
  pos2 : m.position.2 < 9
  others_ge2 : ∀ r, r < 9 → ∀ c, c < 9 → (r, c) ≠ m.position →
    ∀ e, calculate_entropy_at_cell (clearMove g m) r c = some e → 2 ≤ e.length
  other_empty : ∃ r c, r < 9 ∧ c < 9 ∧ (r, c) ≠ m.position ∧
    cellAt (clearMove g m) r c = 0
  val_mem : ∀ e,
    calculate_entropy_at_cell (clearMove g m) m.position.1 m.position.2 = some e →
    m.new_value ∈ e

/-- The top move's decision cell had exactly two candidates. -/
def TopTwo (g : Grid) (m : BoardMove) : Prop :=
  ∀ e, calculate_entropy_at_cell (clearMove g m) m.position.1 m.position.2 = some e →
    e.length = 2

/-- `cellAt` respects pointwise equality. -/
theorem cellAt_congr {g g' : Grid} (h : GEq g g') (r c : ℕ) :
    cellAt g r c = cellAt g' r c := h (r * 9 + c)

/-- `TopInv` only depends on the cleared decision state, pointwise. -/
theorem topInv_of_geq {g g' : Grid} {m m' : BoardMove} (hpos : m'.position = m.position)
    (hval : m'.new_value = m.new_value)
    (hgeq : GEq (clearMove g' m') (clearMove g m)) (h : TopInv g m) : TopInv g' m' where
  pos1 := hpos ▸ h.pos1
  pos2 := hpos ▸ h.pos2
  others_ge2 := fun r hr c hc hne e he => h.others_ge2 r hr c hc (hpos ▸ hne) e
    (by rw [← entropy_congr hgeq]; exact he)
  other_empty := by
    obtain ⟨r, c, hr, hc, hne, hcell⟩ := h.other_empty
    exact ⟨r, c, hr, hc, hpos ▸ hne, by rw [cellAt_congr hgeq]; exact hcell⟩
  val_mem := fun e he => hval ▸ h.val_mem e
    (by rw [← entropy_congr hgeq, ← hpos]; exact he)

/-- `TopTwo` only depends on the cleared decision state, pointwise. -/
theorem topTwo_of_geq {g g' : Grid} {m m' : BoardMove} (hpos : m'.position = m.position)
    (hgeq : GEq (clearMove g' m') (clearMove g m)) (h : TopTwo g m) : TopTwo g' m' :=
  fun e he => h e (by rw [← entropy_congr hgeq, ← hpos]; exact he)

/-- Filling one cell of a state whose other empty cells all have at least `k`
candidates leaves a selector result with at least `k - 1` candidates. -/
theorem find_after_fill {S : Grid} {pos : ℕ × ℕ} {v k : ℕ}
    (hlen : S.length = 81) (h1 : pos.1 < 9) (h2 : pos.2 < 9) (hv : v ≠ 0)
    (hothers : ∀ r, r < 9 → ∀ c, c < 9 → (r, c) ≠ pos →
      ∀ e₀, calculate_entropy_at_cell S r c = some e₀ → k ≤ e₀.length)
    (hempty : ∃ r c, r < 9 ∧ c < 9 ∧ (r, c) ≠ pos ∧ cellAt S r c = 0) :
    ∃ p' e', find_least_entropy (S.set (pos.1 * 9 + pos.2) v) = some (p', e') ∧
      k - 1 ≤ e'.length := by
  have hidx : pos.1 * 9 + pos.2 < S.length := by omega
  obtain ⟨r, c, hr, hc, hne, hcell⟩ := hempty
  have hrcidx : r * 9 + c ≠ pos.1 * 9 + pos.2 := by
    intro hcontra
    apply hne
    have : r = pos.1 ∧ c = pos.2 := by omega
    rw [Prod.ext_iff]
    exact this
  have hcell' : cellAt (S.set (pos.1 * 9 + pos.2) v) r c = 0 := by
    show (S.set _ v).getD (r * 9 + c) 0 = 0
    rw [getD_set_ne _ _ _ hrcidx]
    exact hcell
  obtain ⟨⟨p', e'⟩, hfind⟩ := find_some_of_empty hr hc hcell'
  obtain ⟨hp1, hp2, hpcell, hpent, -⟩ := find_some_spec hfind
  have hppos : p' ≠ pos := by
    intro hcontra
    rw [hcontra] at hpcell
    have : cellAt (S.set (pos.1 * 9 + pos.2) v) pos.1 pos.2 = v := by
      show (S.set _ v).getD (pos.1 * 9 + pos.2) 0 = v
      rw [getD_set_lt S v hidx, if_pos rfl]
    rw [this] at hpcell
    exact hv hpcell
  have hpidx : p'.1 * 9 + p'.2 ≠ pos.1 * 9 + pos.2 := by
    intro hcontra
    apply hppos
    have : p'.1 = pos.1 ∧ p'.2 = pos.2 := by omega
    rw [Prod.ext_iff]
    exact this
  have hpcellS : cellAt S p'.1 p'.2 = 0 := by
    have := hpcell
    show S.getD (p'.1 * 9 + p'.2) 0 = 0
    rw [← getD_set_ne S (pos.1 * 9 + pos.2) v hpidx]
    exact this
  obtain ⟨e₀, he₀⟩ : ∃ e₀, calculate_entropy_at_cell S p'.1 p'.2 = some e₀ := by
    rcases h : calculate_entropy_at_cell S p'.1 p'.2 with _ | e₀
    · exact absurd hpcellS (entropy_none_iff.mp h)
    · exact ⟨e₀, rfl⟩
  have hk := hothers p'.1 hp1 p'.2 hp2 hppos e₀ he₀
  obtain ⟨e₂, he₂, -, hle⟩ := entropy_set_superset (v := v) hidx hpidx he₀
  rw [hpent] at he₂
  rw [Option.some.injEq] at he₂
  rw [← he₂] at hle
  exact ⟨p', e', hfind, by omega⟩

/-- Unfolding equation for `backtrack` on a nonempty history, phrased with
`clearMove`. -/
theorem backtrack_cons (oa : Oracle) (g : Grid) (m : BoardMove)
    (rest : List BoardMove) :
    backtrack oa g (m :: rest) =
      match calculate_entropy_at_cell (clearMove g m) m.position.1 m.position.2 with
      | none => .crash
      | some e =>
        let ord := oa.btOrder (e.erase m.new_value)
        let items := ord.map (fun v => (v,
          find_least_entropy ((clearMove g m).set (m.position.1 * 9 + m.position.2) v)))
        let gAfter := match ord.getLast? with
          | some v => (clearMove g m).set (m.position.1 * 9 + m.position.2) v
          | none => clearMove g m
        let surviving := (items.filter (fun x => match x.2 with
          | none => false
          | some nd => !nd.2.isEmpty)).filterMap (fun x => match x.2 with
          | none => none
          | some nd => some (x.1, nd))
        match oa.pick surviving with
        | some (substitute_val, next_data) =>
          .step gAfter
            ({ position := m.position, new_value := substitute_val, cascades := [] } :: rest)
            (some next_data)
        | none =>
          match backtrack oa gAfter rest with
          | .crash => .crash
          | .step g' moves' _ => .step g' moves' none := rfl

/-- The heart of the reachability argument: popping a move whose decision
state satisfies `TopInv` and `TopTwo` always finds a surviving substitute, so
`backtrack` takes the `.step`-with-`Some` branch — the result-discarding
recursion never fires. -/
theorem backtrack_pop_spec {oa : Oracle} (hoa : oa.Faithful) (g : Grid)
    (m : BoardMove) (rest : List BoardMove)
    (hlen : g.length = 81) (htop : TopInv g m) (htwo : TopTwo g m) :
    ∃ (w : ℕ) (nd : (ℕ × ℕ) × List ℕ),
      backtrack oa g (m :: rest) =
        .step ((clearMove g m).set (m.position.1 * 9 + m.position.2) w)
          ({ position := m.position, new_value := w, cascades := [] } :: rest)
          (some nd) ∧
      find_least_entropy ((clearMove g m).set (m.position.1 * 9 + m.position.2) w)
        = some nd ∧
      (∀ e, calculate_entropy_at_cell (clearMove g m) m.position.1 m.position.2
        = some e → w ∈ e) := by
  have hcell : cellAt (clearMove g m) m.position.1 m.position.2 = 0 := by
    show (clearMove g m).getD (m.position.1 * 9 + m.position.2) 0 = 0
    rw [getD_clearMove, if_pos rfl]
  obtain ⟨E, hE⟩ : ∃ E, calculate_entropy_at_cell (clearMove g m)
      m.position.1 m.position.2 = some E := by
    rcases h : calculate_entropy_at_cell (clearMove g m) m.position.1 m.position.2
      with _ | E
    · exact absurd hcell (entropy_none_iff.mp h)
    · exact ⟨E, rfl⟩
  have hElen : E.length = 2 := htwo E hE
  have hval : m.new_value ∈ E := htop.val_mem E hE
  have herase : (E.erase m.new_value).length = 1 := by
    rw [List.length_erase_of_mem hval, hElen]
  have hperm := hoa.btOrder_perm (E.erase m.new_value)
  have hordlen : (oa.btOrder (E.erase m.new_value)).length = 1 := by
    rw [hperm.length_eq, herase]
  obtain ⟨w, hw⟩ := List.length_eq_one.mp hordlen
  have hwmem : w ∈ E.erase m.new_value := by
    apply hperm.mem_iff.mp
    rw [hw]
    exact List.mem_singleton_self w
  have hwE : w ∈ E := List.mem_of_mem_erase hwmem
  have hw0 : w ≠ 0 := by
    intro h0
    exact zero_not_mem_entropy htop.pos1 htop.pos2 hE (h0 ▸ hwE)
  obtain ⟨p', e', hfind, he'len⟩ := find_after_fill (k := 2)
    (by rw [length_clearMove, hlen]) htop.pos1 htop.pos2 hw0
    htop.others_ge2 htop.other_empty
  have he'ne : e'.isEmpty = false := by
    rcases e' with _ | ⟨a, t⟩
    · simp at he'len
    · rfl
  have hsurv : ((((oa.btOrder (E.erase m.new_value)).map (fun v => (v,
        find_least_entropy ((clearMove g m).set (m.position.1 * 9 + m.position.2)
          v)))).filter (fun x => match x.2 with
        | none => false
        | some nd => !nd.2.isEmpty)).filterMap (fun x => match x.2 with
        | none => none
        | some nd => some (x.1, nd))) = [(w, (p', e'))] := by
    rw [hw]
    simp only [List.map_cons, List.map_nil, hfind, List.filter_cons, List.filter_nil]
    rw [if_pos (by simp [he'ne])]
    simp only [List.filterMap_cons, List.filterMap_nil]
  obtain ⟨x, hpick⟩ : ∃ x, oa.pick [(w, (p', e'))] = some x := by
    rcases h : oa.pick [(w, (p', e'))] with _ | x
    · exact absurd h (hoa.pick_some _ (by simp))
    · exact ⟨x, rfl⟩
  have hx : x = (w, (p', e')) := by
    have := hoa.pick_mem _ _ hpick
    simpa using this
  refine ⟨w, (p', e'), ?_, hfind, fun e he => by
    rw [hE, Option.some.injEq] at he
    rw [← he]
    exact hwE⟩
  rw [backtrack_cons, hE]
  simp only []
  rw [hsurv, hpick, hx]
  rw [hw]
  rfl

/-- Build `TopInv` from facts about any grid pointwise equal to the cleared
decision state. -/
theorem topInv_mk {g' : Grid} {m' : BoardMove} {S : Grid}
    (hgeq : GEq (clearMove g' m') S)
    (h1 : m'.position.1 < 9) (h2 : m'.position.2 < 9)
    (hothers : ∀ r, r < 9 → ∀ c, c < 9 → (r, c) ≠ m'.position →
      ∀ e, calculate_entropy_at_cell S r c = some e → 2 ≤ e.length)
    (hempty : ∃ r c, r < 9 ∧ c < 9 ∧ (r, c) ≠ m'.position ∧ cellAt S r c = 0)
    (hval : ∀ e, calculate_entropy_at_cell S m'.position.1 m'.position.2 = some e →
      m'.new_value ∈ e) : TopInv g' m' where
  pos1 := h1
  pos2 := h2
  others_ge2 := fun r hr c hc hne e he => hothers r hr c hc hne e
    (by rw [← entropy_congr hgeq]; exact he)
  other_empty := by
    obtain ⟨r, c, hr, hc, hne, hcell⟩ := hempty
    exact ⟨r, c, hr, hc, hne, by rw [cellAt_congr hgeq]; exact hcell⟩
  val_mem := fun e he => hval e (by rw [← entropy_congr hgeq]; exact he)

/-- Build `TopTwo` from facts about any grid pointwise equal to the cleared
decision state. -/
theorem topTwo_mk {g' : Grid} {m' : BoardMove} {S : Grid}
    (hgeq : GEq (clearMove g' m') S)
    (h : ∀ e, calculate_entropy_at_cell S m'.position.1 m'.position.2 = some e →
      e.length = 2) : TopTwo g' m' :=
  fun e he => h e (by rw [← entropy_congr hgeq]; exact he)

/-- The loop invariant of `solve_board`: the grid keeps its 81 cells, the
carried selector result is *real* (recomputing on the current grid returns the
same answer), and the top of the move history has a decision state satisfying
`TopInv`, whose cell moreover had exactly two candidates unless the carried
selector result still shows at least two. -/
def Inv (g : Grid) (moves : List BoardMove) (ler : Option ((ℕ × ℕ) × List ℕ)) : Prop :=
  g.length = 81 ∧ ler = find_least_entropy g ∧
  ∀ m rest, moves = m :: rest → TopInv g m ∧
    (TopTwo g m ∨ ∃ p e, ler = some (p, e) ∧ 2 ≤ e.length)

/-- Unfolding equation for `solveStep` on a `Some` selector result. -/
theorem solveStep_some (oa : Oracle) (g : Grid) (moves : List BoardMove)
    (row col : ℕ) (ent : List ℕ) :
    solveStep oa g moves (some ((row, col), ent)) =
      if ent.isEmpty then
        match backtrack oa g moves with
        | .crash => .halt .crash
        | .step g' moves' ler' => .again g' moves' ler'
      else if ent.length = 1 then
        .again (g.set (row * 9 + col) (ent.headD 0))
          (match moves with
           | [] => []
           | last :: rest =>
             { last with cascades := last.cascades ++ [(row, col)] } :: rest)
          (find_least_entropy (g.set (row * 9 + col) (ent.headD 0)))
      else
        match testCandidates (row * 9 + col) g (oa.entOrder ent) with
        | .inr gEarly => .halt (.ok gEarly)
        | .inl (gf, opts) =>
          match reduceChoice opts with
          | none => .halt .crash
          | some (choiceVal, _) =>
            .again gf
              ({ position := (row, col), new_value := choiceVal, cascades := [] } :: moves)
              (find_least_entropy gf) := rfl

/-- One loop iteration from an invariant state either halts `Ok` on a grid
the selector reports complete, halts in a panic, or continues in an invariant
state — the `Ok`-on-unsolved-grid escape through `backtrack`'s discarded
recursion is unreachable under a faithful oracle. -/
theorem solveStep_inv {oa : Oracle} (hoa : oa.Faithful) {g : Grid}
    {moves : List BoardMove} {ler : Option ((ℕ × ℕ) × List ℕ)}
    (hinv : Inv g moves ler) :
    (∃ g', solveStep oa g moves ler = .halt (.ok g') ∧
      find_least_entropy g' = none) ∨
    solveStep oa g moves ler = .halt .crash ∨
    (∃ g' moves' ler', solveStep oa g moves ler = .again g' moves' ler' ∧
      Inv g' moves' ler') := by
  obtain ⟨hlen, hler, htops⟩ := hinv
  rcases ler with _ | ⟨⟨row, col⟩, ent⟩
  · exact Or.inl ⟨g, rfl, hler.symm⟩
  · have hfg : find_least_entropy g = some ((row, col), ent) := hler.symm
    by_cases hemp : ent.isEmpty = true
    · have hent0 : ent = [] := by rwa [List.isEmpty_iff] at hemp
      rcases moves with _ | ⟨m, rest⟩
      · refine Or.inr (Or.inl ?_)
        rw [solveStep_some, if_pos hemp]
        rfl
      · obtain ⟨htop, hdisj⟩ := htops m rest rfl
        have htwo : TopTwo g m := by
          rcases hdisj with h | ⟨p, e, hpe, hge⟩
          · exact h
          · exfalso
            rw [Option.some.injEq] at hpe
            have he : ent = e := congrArg Prod.snd hpe
            rw [← he, hent0] at hge
            simp at hge
        obtain ⟨w, nd, hbt, hfind, hwmem⟩ :=
          backtrack_pop_spec hoa g m rest hlen htop htwo
        have hcm : (clearMove g m).getD (m.position.1 * 9 + m.position.2) 0 = 0 := by
          rw [getD_clearMove, if_pos rfl]
        have hgeq : GEq (clearMove
            ((clearMove g m).set (m.position.1 * 9 + m.position.2) w)
            { position := m.position, new_value := w, cascades := [] })
            (clearMove g m) :=
          fun j => set_set_zero_geq (clearMove g m)
            (m.position.1 * 9 + m.position.2) w hcm j
        refine Or.inr (Or.inr
          ⟨(clearMove g m).set (m.position.1 * 9 + m.position.2) w,
            { position := m.position, new_value := w, cascades := [] } :: rest,
            some nd, ?_, ?_, hfind.symm, ?_⟩)
        · rw [solveStep_some, if_pos hemp, hbt]
        · rw [List.length_set, length_clearMove, hlen]
        · intro m' rest' heq
          rw [List.cons.injEq] at heq
          rw [← heq.1]
          exact ⟨topInv_mk hgeq htop.pos1 htop.pos2 htop.others_ge2
            htop.other_empty hwmem, Or.inl (topTwo_mk hgeq htwo)⟩
    · obtain ⟨hrow0, hcol0, hcell0, hentg0, hmin⟩ := find_some_spec hfg
      have hrow : row < 9 := hrow0
      have hcol : col < 9 := hcol0
      have hcell : cellAt g row col = 0 := hcell0
      have hentg : calculate_entropy_at_cell g row col = some ent := hentg0
      by_cases hlen1 : ent.length = 1
      · rcases moves with _ | ⟨m, rest⟩
        · refine Or.inr (Or.inr ⟨g.set (row * 9 + col) (ent.headD 0), [],
            find_least_entropy (g.set (row * 9 + col) (ent.headD 0)),
            ?_, ?_, rfl, ?_⟩)
          · rw [solveStep_some, if_neg hemp, if_pos hlen1]
          · rw [List.length_set, hlen]
          · intro m' rest' heq
            exact absurd heq (by simp)
        · obtain ⟨htop, hdisj⟩ := htops m rest rfl
          have htwo : TopTwo g m := by
            rcases hdisj with h | ⟨p, e, hpe, hge⟩
            · exact h
            · exfalso
              rw [Option.some.injEq] at hpe
              have he : ent = e := congrArg Prod.snd hpe
              rw [← he] at hge
              omega
          have hgeq := clearMove_cascade_append (m := m) (v := ent.headD 0) hcell
          refine Or.inr (Or.inr ⟨g.set (row * 9 + col) (ent.headD 0),
            { m with cascades := m.cascades ++ [(row, col)] } :: rest,
            find_least_entropy (g.set (row * 9 + col) (ent.headD 0)),
            ?_, ?_, rfl, ?_⟩)
          · rw [solveStep_some, if_neg hemp, if_pos hlen1]
          · rw [List.length_set, hlen]
          · intro m' rest' heq
            rw [List.cons.injEq] at heq
            rw [← heq.1]
            exact ⟨topInv_mk hgeq htop.pos1 htop.pos2 htop.others_ge2
              htop.other_empty htop.val_mem, Or.inl (topTwo_mk hgeq htwo)⟩
      · have hentne : ent ≠ [] := fun h => hemp (by rw [h]; rfl)
        have hge2 : 2 ≤ ent.length := by
          have : ent.length ≠ 0 := fun h => hentne (List.length_eq_zero.mp h)
          omega
        rcases htc : testCandidates (row * 9 + col) g (oa.entOrder ent)
          with ⟨gf, opts⟩ | gEarly
        · rcases hrc : reduceChoice opts with _ | ⟨choiceVal, cdata⟩
          · refine Or.inr (Or.inl ?_)
            rw [solveStep_some, if_neg hemp, if_neg hlen1, htc]
            dsimp only
            rw [hrc]
          · have hmemopts := reduceChoice_mem opts _ hrc
            obtain ⟨hvord0, hfindc0, -⟩ :=
              testCandidates_inl_opts _ g gf opts htc _ hmemopts
            have hvord : choiceVal ∈ oa.entOrder ent := hvord0
            have hfindc : find_least_entropy (g.set (row * 9 + col) choiceVal)
                = some cdata := hfindc0
            have hventropy : choiceVal ∈ ent :=
              (hoa.entOrder_perm ent).mem_iff.mp hvord
            have hvne0 : choiceVal ≠ 0 := fun h0 =>
              zero_not_mem_entropy hrow hcol hentg (h0 ▸ hventropy)
            have hidxlt : row * 9 + col < g.length := by rw [hlen]; omega
            obtain ⟨hc1, hc2, hccell, -, -⟩ := find_some_spec hfindc
            have hcc := (cell_set_zero_iff hidxlt hvne0
              (cdata.1.1 * 9 + cdata.1.2)).mp hccell
            have hcpos : (cdata.1.1, cdata.1.2) ≠ ((row, col) : ℕ × ℕ) := by
              intro h
              rw [Prod.mk.injEq] at h
              exact hcc.2 (by rw [h.1, h.2])
            have hempty2 : ∃ r c, r < 9 ∧ c < 9 ∧ (r, c) ≠ ((row, col) : ℕ × ℕ) ∧
                cellAt g r c = 0 :=
              ⟨cdata.1.1, cdata.1.2, hc1, hc2, hcpos, hcc.1⟩
            have hothers2 : ∀ r, r < 9 → ∀ c, c < 9 →
                (r, c) ≠ ((row, col) : ℕ × ℕ) →
                ∀ e₀, calculate_entropy_at_cell g r c = some e₀ → 2 ≤ e₀.length :=
              fun r hr c hc _ e₀ he₀ => le_trans hge2 (hmin r c hr hc e₀ he₀)
            have hordne : oa.entOrder ent ≠ [] := by
              intro h
              have hl := (hoa.entOrder_perm ent).length_eq
              rw [h] at hl
              simp only [List.length_nil] at hl
              omega
            rcases testCandidates_inl_grid _ g gf opts htc
              with ⟨hord, -⟩ | ⟨γ, hγlast, hgf⟩
            · exact absurd hord hordne
            have hγord : γ ∈ oa.entOrder ent := by
              obtain ⟨hne, heq⟩ := List.mem_getLast?_eq_getLast
                (l := oa.entOrder ent) (Option.mem_def.mpr hγlast)
              rw [heq]
              exact List.getLast_mem hne
            have hγent : γ ∈ ent := (hoa.entOrder_perm ent).mem_iff.mp hγord
            have hγ0 : γ ≠ 0 := fun h0 =>
              zero_not_mem_entropy hrow hcol hentg (h0 ▸ hγent)
            have hgeq : GEq (clearMove gf
                { position := ((row, col) : ℕ × ℕ), new_value := choiceVal,
                  cascades := [] }) g := by
              rw [hgf]
              exact @clearMove_push_geq g ((row, col) : ℕ × ℕ) choiceVal γ hcell
            have hvalmem : ∀ e, calculate_entropy_at_cell g row col = some e →
                choiceVal ∈ e := by
              intro e he
              rw [hentg, Option.some.injEq] at he
              rw [← he]
              exact hventropy
            refine Or.inr (Or.inr ⟨gf,
              { position := ((row, col) : ℕ × ℕ), new_value := choiceVal,
                cascades := [] } :: moves,
              find_least_entropy gf, ?_, ?_, rfl, ?_⟩)
            · rw [solveStep_some, if_neg hemp, if_neg hlen1, htc]
              dsimp only
              rw [hrc]
            · rw [hgf, List.length_set, hlen]
            · intro m' rest' heq
              rw [List.cons.injEq] at heq
              rw [← heq.1]
              refine ⟨topInv_mk hgeq hrow hcol hothers2 hempty2 hvalmem, ?_⟩
              by_cases h2 : ent.length = 2
              · refine Or.inl (topTwo_mk hgeq ?_)
                intro e he
                rw [hentg, Option.some.injEq] at he
                rw [← he]
                exact h2
              · have h3 : 3 ≤ ent.length := by omega
                have hothers3 : ∀ r, r < 9 → ∀ c, c < 9 →
                    (r, c) ≠ ((row, col) : ℕ × ℕ) →
                    ∀ e₀, calculate_entropy_at_cell g r c = some e₀ →
                    3 ≤ e₀.length :=
                  fun r hr c hc _ e₀ he₀ => le_trans h3 (hmin r c hr hc e₀ he₀)
                obtain ⟨p', e', hf', hlen'⟩ := @find_after_fill g
                  ((row, col) : ℕ × ℕ) γ 3 (by rw [hlen]) hrow hcol hγ0
                  hothers3 hempty2
                refine Or.inr ⟨p', e', ?_, by omega⟩
                rw [hgf]
                exact hf'
        · obtain ⟨v, hv, hgE, hfindnone⟩ := testCandidates_inr _ g gEarly htc
          refine Or.inl ⟨gEarly, ?_, hfindnone⟩
          rw [solveStep_some, if_neg hemp, if_neg hlen1, htc]

/-- Any `Ok` exit of the solver loop from an invariant state carries a grid
the selector reports complete. -/
theorem solveLoop_inv {oa : Oracle} (hoa : oa.Faithful) :
    ∀ (fuel : ℕ) (g : Grid) (moves : List BoardMove)
      (ler : Option ((ℕ × ℕ) × List ℕ)), Inv g moves ler →
      ∀ g', solveLoop oa fuel g moves ler = .ok g' →
      find_least_entropy g' = none := by
  intro fuel
  induction fuel with
  | zero =>
    intro g moves ler _ g' h
    exact absurd h (by simp [solveLoop])
  | succ n ih =>
    intro g moves ler hinv g' h
    unfold solveLoop at h
    rcases solveStep_inv hoa hinv with ⟨g'', hstep, hnone⟩ | hstep |
      ⟨g'', moves'', ler'', hstep, hinv'⟩
    · rw [hstep] at h
      dsimp only at h
      injection h with h
      rw [← h]
      exact hnone
    · rw [hstep] at h
      dsimp only at h
      exact absurd h (by simp)
    · rw [hstep] at h
      dsimp only at h
      exact ih g'' moves'' ler'' hinv' g' h

/-- Claim C1: under a faithful oracle — hash-set iteration orders that permute
the set contents and a `choose` that returns an element iff its input is
nonempty — whenever `solve_board` answers `Ok` on an 81-cell grid, the final
grid is solved: the least-candidate selector reports that no empty cell
remains, and indeed none of the 81 cells holds zero.  The loop reaches its
`Ok` exits only with a `None` selector result or an early completed grid, and
`backtrack`'s result-discarding recursion (which would yield `Ok` on an
unsolved grid) is unreachable from an initial state. -/
theorem C1_ok_implies_solved (oa : Oracle) (hoa : oa.Faithful) (fuel : ℕ)
    (g : Grid) (hlen : g.length = 81) (g' : Grid)
    (h : solve_board oa fuel g = .ok g') :
    find_least_entropy g' = none ∧ ∀ i, i < 81 → g'.getD i 0 ≠ 0 := by
  have hnone : find_least_entropy g' = none := by
    apply solveLoop_inv hoa fuel g [] (find_least_entropy g) _ g' h
    exact ⟨hlen, rfl, fun m rest hc => absurd hc (by simp)⟩
  refine ⟨hnone, ?_⟩
  intro i hi
  have hcell := (find_none_iff g').mp hnone (i / 9) (by omega) (i % 9) (by omega)
  have hidx : i / 9 * 9 + i % 9 = i := by omega
  unfold cellAt at hcell
  rw [hidx] at hcell
  exact hcell

/-- Witness for C1: the concrete oracle is faithful and solving the complete
classic grid answers `Ok` with a zero-free grid. -/
theorem C1_witness :
    concreteOracle.Faithful ∧ classicSolvedGrid.length = 81 ∧
    solve_board concreteOracle 1 classicSolvedGrid = .ok classicSolvedGrid ∧
    (find_least_entropy classicSolvedGrid = none ∧
      ∀ i, i < 81 → classicSolvedGrid.getD i 0 ≠ 0) :=
  ⟨concreteOracle_faithful, by decide, by decide,
    C1_ok_implies_solved concreteOracle concreteOracle_faithful 1
      classicSolvedGrid (by decide) classicSolvedGrid (by decide)⟩

end Sudoku
